import Mathlib

set_option autoImplicit false
set_option maxRecDepth 8000

/-!
# Resource leveling for a Gantt structure

A shallow embedding of the leveling engine: the working-time calendar
(`gantt_calendar.go`, `helpers.go`), the slot allocator (`slots.go`) and the
planner loop of `calculateLeveling` (`main.go`).

Conventions of the embedding.

* `time.Duration` is an int64 count of nanoseconds: a value is an `Int` and
  every addition of two durations goes through `addDuration`, which wraps
  around at 64 bits as Go's `+` does.
* A Go function returning `(value, error)` returns a pair whose second
  component is `none` for a nil error.  Callers that discard the error with
  `_` simply project the first component, as the Go code does.
* A Go slice that is mutated in place is passed in and returned.
* A run-time panic (index out of range, negative `make` length) is the
  `none` of an `Option`.
* The only values of `time.Time` the engine manipulates are read through
  `Year`, `Month`, `Day` and `Weekday`, compared with `Before` and advanced
  with `AddDate(0, 0, 1)`, so a `Time` is modelled as a normalised
  proleptic-Gregorian calendar date.
-/

namespace Leveling

/-! ## Durations -/

/-- Go's `time.Hour`; a `time.Duration` is an int64 count of nanoseconds. -/
def Hour : Int := 3600000000000

/-- The values of an int64: from -2^63 to 2^63 - 1. -/
def inInt64 (x : Int) : Prop :=
  -9223372036854775808 ≤ x ∧ x ≤ 9223372036854775807

instance (x : Int) : Decidable (inInt64 x) := by
  unfold inInt64; infer_instance

/-- The int64 that Go keeps of an integer result: the value modulo 2^64 in
the range from -2^63 to 2^63 - 1. -/
def wrap64 (x : Int) : Int :=
  (x + 9223372036854775808) % 18446744073709551616 - 9223372036854775808

/-- Go's `a + b` on two `time.Duration` values. -/
def addDuration (a b : Int) : Int := wrap64 (a + b)

/-! ## The part of package `time` the engine uses -/

/-- Go's `isLeap`. -/
def isLeap (year : Int) : Bool :=
  decide (year % 4 = 0 ∧ (year % 100 ≠ 0 ∨ year % 400 = 0))

/-- Go's `daysIn`: the number of days of a month of a year. -/
def daysIn (m : Int) (year : Int) : Int :=
  if m = 2 then (if isLeap year = true then 29 else 28)
  else if m = 4 ∨ m = 6 ∨ m = 9 ∨ m = 11 then 30
  else 31

/-- A `time.Time` at midnight UTC, held as its normalised civil date. -/
structure Time where
  year : Int
  month : Int
  day : Int
  month_ok : 1 ≤ month ∧ month ≤ 12
  day_ok : 1 ≤ day ∧ day ≤ daysIn month year

/-- The zero `time.Time`, January 1 of year 1; what `time.Parse` returns
with an error. -/
def Time.zero : Time := ⟨1, 1, 1, by decide, by decide⟩

/-- Go's `t.IsZero()`. -/
def Time.IsZero (t : Time) : Bool :=
  decide (t.year = 1 ∧ t.month = 1 ∧ t.day = 1)

/-- Go's `t.Before(u)`: the instant `t` is earlier than `u`; on normalised
dates that is the lexicographic order of (year, month, day). -/
def Time.Before (t u : Time) : Bool :=
  decide (t.year < u.year ∨
    (t.year = u.year ∧ (t.month < u.month ∨ (t.month = u.month ∧ t.day < u.day))))

/-- Go's `t.AddDate(0, 0, 1)`: the date `(year, month, day + 1)` normalised,
which rolls over into the next month or the next year. -/
def Time.addDay (t : Time) : Time :=
  if h : t.day < daysIn t.month t.year then
    ⟨t.year, t.month, t.day + 1, t.month_ok, by have := t.day_ok; omega⟩
  else if h2 : t.month < 12 then
    ⟨t.year, t.month + 1, 1, by have := t.month_ok; omega, by
      unfold daysIn; split <;> (try split) <;> omega⟩
  else
    ⟨t.year + 1, 1, 1, by decide, by
      unfold daysIn; simp⟩

/-- Days of a non-leap year before the first of month `m` (Go's
`daysBefore` table). -/
def daysBefore (m : Int) : Int :=
  if m = 1 then 0 else if m = 2 then 31 else if m = 3 then 59
  else if m = 4 then 90 else if m = 5 then 120 else if m = 6 then 151
  else if m = 7 then 181 else if m = 8 then 212 else if m = 9 then 243
  else if m = 10 then 273 else if m = 11 then 304 else 334

/-- Number of days elapsed since January 1 of year 1 (a Monday), the way
Go's `Date` counts them. -/
def Time.dayNumber (t : Time) : Int :=
  let y := t.year - 1
  365 * y + y / 4 - y / 100 + y / 400 + daysBefore t.month
    + (if isLeap t.year = true ∧ 3 ≤ t.month then 1 else 0) + (t.day - 1)

/-- Go's `t.Weekday()`, Sunday = 0, ..., Saturday = 6. -/
def Time.Weekday (t : Time) : Int := (t.dayNumber + 1) % 7

/-! ## helpers.go -/

/-- The dates `time.Parse("20060102", strconv.Itoa(dateId))` accepts. The
layout takes exactly four digits of year, two of month and two of day and
rejects any text left over; `Itoa` writes no leading zero and a sign for a
negative number. So the decimal text must have exactly eight digits, the
month must be in 1..12 and the day in 1..daysIn. -/
def parses (dateId : Int) : Prop :=
  10000000 ≤ dateId ∧ dateId ≤ 99999999 ∧
  (1 ≤ dateId / 100 % 100 ∧ dateId / 100 % 100 ≤ 12) ∧
  (1 ≤ dateId % 100 ∧ dateId % 100 ≤ daysIn (dateId / 100 % 100) (dateId / 10000))

instance (dateId : Int) : Decidable (parses dateId) := by
  unfold parses; infer_instance

/-- Embedding of `parseDateId`. -/
def parseDateId (dateId : Int) : Time × Option String :=
  if h : parses dateId then
    (⟨dateId / 10000, dateId / 100 % 100, dateId % 100, h.2.2.1, h.2.2.2⟩, none)
  else
    (Time.zero, some "parsing time: cannot parse")

/-- Embedding of `dateIdFromTime`. The years of a `time.Time` stay far below
10^14, so this `int` arithmetic never leaves int64. -/
def dateIdFromTime (t : Time) : Int :=
  t.year * 10000 + t.month * 100 + t.day

/-! ## gantt_calendar.go -/

structure TimeRange where
  StartTimeId : Int
  FinishTimeId : Int

structure DaySchedule where
  TimeRanges : List TimeRange
  Duration : Int

instance : Inhabited DaySchedule := ⟨⟨[], 0⟩⟩

/-- The calendar; the Go map `CustomDays` is an association list read with
`List.lookup`. -/
structure Calendar where
  ID : Int
  Name : String
  WeekDays : List DaySchedule
  CustomDays : List (Int × DaySchedule)

/-- Embedding of `Calendar.GetWorkingDurationForDate`. -/
def Calendar.GetWorkingDurationForDate (c : Calendar) (dateId : Int) : Int :=
  match c.CustomDays.lookup dateId with
  | some day => day.Duration
  | none =>
    match parseDateId dateId with
    | (_, some _) => 0
    | (t, none) =>
      let weekday := t.Weekday
      let weekday := if weekday = 0 then 6 else weekday - 1
      if weekday ≥ 0 ∧ weekday < c.WeekDays.length then
        (c.WeekDays.getD weekday.toNat default).Duration
      else 0

/-- The `for d := startDate; d.Before(endDate); d = d.AddDate(0, 0, 1)` loop
of `GetWorkingDurationBetween`, with the running `total`. -/
def Calendar.betweenLoop (c : Calendar) (endDate : Time) (d : Time) (total : Int) :
    Int :=
  if d.Before endDate = true then
    c.betweenLoop endDate d.addDay
      (addDuration total (c.GetWorkingDurationForDate (dateIdFromTime d)))
  else total
termination_by (dateIdFromTime endDate - dateIdFromTime d).toNat
decreasing_by
  rename_i h
  have hd := d.day_ok
  have hm := d.month_ok
  have he := endDate.day_ok
  have hem := endDate.month_ok
  have h31 : ∀ m y, daysIn m y ≤ 31 := by
    intro m y; unfold daysIn; split <;> (try split) <;> omega
  have h1 := h31 d.month d.year
  simp only [Time.Before, decide_eq_true_eq] at h
  have hlt : dateIdFromTime d < dateIdFromTime endDate := by
    simp only [dateIdFromTime]; omega
  have hnext : dateIdFromTime d < dateIdFromTime d.addDay := by
    unfold Time.addDay
    split
    · simp only [dateIdFromTime]; omega
    · split
      · simp only [dateIdFromTime]; omega
      · simp only [dateIdFromTime]; omega
  omega

/-- Embedding of `Calendar.GetWorkingDurationBetween`; both parse errors are
discarded, as in the source. -/
def Calendar.GetWorkingDurationBetween (c : Calendar) (startDateId finishDateId : Int) :
    Int :=
  let startDate := (parseDateId startDateId).1
  let endDate := (parseDateId finishDateId).1
  c.betweenLoop endDate startDate 0

/-! ## slots.go -/

/-- Go's `type Slots []time.Duration`. -/
abbrev Slots := List Int

/-- Embedding of `NewSlots`: `make` panics on a negative length; every
element of the fresh slice is then overwritten with `delay`. -/
def NewSlots (slots : Int) (delay : Int) : Option Slots :=
  if slots < 0 then none
  else some ((List.replicate slots.toNat (0 : Int)).map (fun _ => delay))

/-- The `for n, v := range s` scan of `FindSlot`: `n` is the index of the
next element, `(i, d)` the tracked index and load. -/
def findSlotScan : List Int → Nat → Nat → Int → Nat
  | [], _, i, _ => i
  | v :: rest, n, i, d =>
    if d > v then findSlotScan rest (n + 1) n v else findSlotScan rest (n + 1) i d

/-- Embedding of `Slots.FindSlot`. -/
def FindSlot (s : Slots) : Nat × Option String :=
  match s with
  | [] => (0, some "no slots")
  | s0 :: _ => (findSlotScan s 0 0 s0, none)

/-- Embedding of `Slots.GetLevelingDelayAndAdd`; the result is the returned
pair and the slice after the call. -/
def GetLevelingDelayAndAdd (s : Slots) (d : Int) :
    Option ((Int × Option String) × Slots) :=
  match FindSlot s with
  | (_, some err) => some ((0, some err), s)
  | (slot, none) =>
    match s[slot]? with
    | none => none
    | some delay => some ((delay, none), s.set slot (addDuration delay d))

/-- Embedding of `Slots.SetDelay`: `s[slot] = d` panics out of range. -/
def SetDelay (s : Slots) (slot : Nat) (d : Int) : Option Slots :=
  if slot < s.length then some (s.set slot d) else none

/-! ## main.go and the client's data -/

structure JiraIssue where
  ID : String
  Key : String

structure StructureRowAttributes where
  Duration : Int
  ManualStart : Time
  ManualFinish : Time
  Start : Time
  Finish : Time
  Signature : Int
  Version : Int

structure GanttMeta where
  Calendar : Calendar
  StartDateId : Int
  ZoneId : String

structure StructureConfig where
  ID : Int
  JQL : String
  ParallelProjects : Int
  StartDateID : Int

/-- What the run reads from outside: the answers of the Jira client, the
clock, and the library scanner behind `parseInt`. -/
structure JiraClient where
  GetGanttMeta : Int → Except String GanttMeta
  GetForestMapping : Int → Except String (List (String × String))
  GetIssues : String → Except String (List JiraIssue)
  GetRowAttributes : Int → Int → Except String StructureRowAttributes
  UpdateLevelingDelay : Int → Int → Int → Int → Int → Option String
  Now : Time
  Sscan : String → Int × Option String

/-- Embedding of `parseInt`. -/
def parseInt (client : JiraClient) (s : String) : Int × Option String :=
  client.Sscan s

/-- How a run of `calculateLeveling` ends. -/
inductive Exit where
  | returned (err : Option String)
  | fatal (msg : String)
  | panicked
deriving DecidableEq

/-- A run of `calculateLeveling`: the `(rowId, delay)` pairs handed to
`UpdateLevelingDelay`, in order, and the way the run ended. -/
structure Run where
  updates : List (Int × Int)
  exit : Exit
deriving DecidableEq

/-- The seeding of the slots in `calculateLeveling`. -/
def seedSlots (client : JiraClient) (cfg : StructureConfig) (gantt : GanttMeta) :
    Option Slots :=
  let todayId := cfg.StartDateID
  let todayId := if todayId ≤ 0 then dateIdFromTime client.Now else todayId
  if gantt.StartDateId ≥ todayId then
    NewSlots cfg.ParallelProjects 0
  else
    NewSlots cfg.ParallelProjects
      (gantt.Calendar.GetWorkingDurationBetween gantt.StartDateId todayId)

/-- The branch of the loop body of `calculateLeveling` that fixes the
leveling delay of one task and updates the slots. -/
def levelingStep (gantt : GanttMeta) (slots : Slots) (attributes : StructureRowAttributes) :
    Option (Int × Slots) :=
  if (!attributes.ManualStart.IsZero || !attributes.ManualFinish.IsZero) = true then
    let slot := (FindSlot slots).1
    match SetDelay slots slot
        (addDuration
          (gantt.Calendar.GetWorkingDurationBetween gantt.StartDateId
            (dateIdFromTime attributes.Start))
          attributes.Duration) with
    | none => none
    | some slots1 => some (0, slots1)
  else
    match GetLevelingDelayAndAdd slots attributes.Duration with
    | none => none
    | some ((levelingDelay, _), slots1) => some (levelingDelay, slots1)

/-- The `for _, issue := range issues` loop of `calculateLeveling`. -/
def levelingLoop (client : JiraClient) (cfg : StructureConfig) (gantt : GanttMeta)
    (issueIDToRowID : List (String × String)) :
    List JiraIssue → Slots → List (Int × Int) → Run
  | [], _, out => ⟨out, Exit.returned none⟩
  | issue :: rest, slots, out =>
    match issueIDToRowID.lookup issue.ID with
    | none => levelingLoop client cfg gantt issueIDToRowID rest slots out
    | some rowID =>
      match parseInt client rowID with
      | (_, some err) => ⟨out, Exit.returned (some err)⟩
      | (rowIDInt, none) =>
        match client.GetRowAttributes cfg.ID rowIDInt with
        | Except.error err => ⟨out, Exit.returned (some err)⟩
        | Except.ok attributes =>
          match levelingStep gantt slots attributes with
          | none => ⟨out, Exit.panicked⟩
          | some (levelingDelay, slots1) =>
            match client.UpdateLevelingDelay cfg.ID rowIDInt levelingDelay
                attributes.Signature attributes.Version with
            | some err => ⟨out ++ [(rowIDInt, levelingDelay)], Exit.fatal err⟩
            | none =>
              levelingLoop client cfg gantt issueIDToRowID rest slots1
                (out ++ [(rowIDInt, levelingDelay)])

/-- Embedding of `calculateLeveling`. -/
def calculateLeveling (client : JiraClient) (cfg : StructureConfig) : Run :=
  match client.GetGanttMeta cfg.ID with
  | Except.error err => ⟨[], Exit.returned (some err)⟩
  | Except.ok gantt =>
    match client.GetForestMapping cfg.ID with
    | Except.error err => ⟨[], Exit.returned (some err)⟩
    | Except.ok issueIDToRowID =>
      match client.GetIssues cfg.JQL with
      | Except.error err => ⟨[], Exit.returned (some err)⟩
      | Except.ok issues =>
        match seedSlots client cfg gantt with
        | none => ⟨[], Exit.panicked⟩
        | some slots => levelingLoop client cfg gantt issueIDToRowID issues slots []

/-- Successive calls of `GetLevelingDelayAndAdd`, one per duration, in order:
the returned pairs and the final slice. -/
def callsInOrder : Slots → List Int → Option (List (Int × Option String) × Slots)
  | s, [] => some ([], s)
  | s, d :: rest =>
    match GetLevelingDelayAndAdd s d with
    | none => none
    | some (r, s1) =>
      match callsInOrder s1 rest with
      | none => none
      | some (rs, s2) => some (r :: rs, s2)

/-- The call `GetLevelingDelayAndAdd` with the addition of `s[slot] += d` taken
in exact integers, without the wrap at 64 bits. -/
def GetLevelingDelayAndAddExact (s : Slots) (d : Int) :
    Option ((Int × Option String) × Slots) :=
  match FindSlot s with
  | (_, some err) => some ((0, some err), s)
  | (slot, none) =>
    match s[slot]? with
    | none => none
    | some delay => some ((delay, none), s.set slot (delay + d))

/-- Successive calls of `GetLevelingDelayAndAddExact`, one per duration, in
order: the returned pairs and the final slice. -/
def callsInOrderExact : Slots → List Int → Option (List (Int × Option String) × Slots)
  | s, [] => some ([], s)
  | s, d :: rest =>
    match GetLevelingDelayAndAddExact s d with
    | none => none
    | some (r, s1) =>
      match callsInOrderExact s1 rest with
      | none => none
      | some (rs, s2) => some (r :: rs, s2)

/-- Number of tasks, given as (delay, duration) pairs, that run at the
working-time instant `x`. -/
def activeAt (x : Int) (tasks : List (Int × Int)) : Nat :=
  (tasks.filter (fun p => decide (p.1 ≤ x ∧ x < p.1 + p.2))).length

/-- Number of slots whose load lies beyond the instant `x`. -/
def busyAt (x : Int) (s : Slots) : Nat :=
  (s.filter (fun v => decide (x < v))).length

/-- The integers `startId, startId + 1, ..., finishId - 1`. -/
def idsBetween (startId finishId : Int) : List Int :=
  (List.range (finishId - startId).toNat).map (fun (i : Nat) => startId + (i : Int))

/-- The calendar days of the half-open range: the ids from `startId` up to,
not including, `finishId` that are the YYYYMMDD writing of a real date, in
increasing order. -/
def calendarDaysBetween (startId finishId : Int) : List Int :=
  (idsBetween startId finishId).filter (fun k => decide (parses k))

/-- The working duration summed over `calendarDaysBetween`. -/
def Calendar.sumOverDays (c : Calendar) (startId finishId : Int) : Int :=
  ((calendarDaysBetween startId finishId).map c.GetWorkingDurationForDate).sum

/-- Day of the week counted from Monday = 0 to Sunday = 6; day number 0,
January 1 of year 1, is a Monday. -/
def Time.mondayFirst (t : Time) : Int := t.dayNumber % 7

/-! ## Sample data -/

/-- A calendar without overrides: 8h from Monday to Friday, nothing on
Saturday and Sunday. -/
def workWeek : Calendar :=
  ⟨1, "work week",
    [⟨[⟨90000, 170000⟩], 8 * Hour⟩, ⟨[⟨90000, 170000⟩], 8 * Hour⟩,
     ⟨[⟨90000, 170000⟩], 8 * Hour⟩, ⟨[⟨90000, 170000⟩], 8 * Hour⟩,
     ⟨[⟨90000, 170000⟩], 8 * Hour⟩, ⟨[], 0⟩, ⟨[], 0⟩],
    []⟩

/-- The work week with Wednesday, January 3 2024 cut to 4h. -/
def workWeekHalfDay : Calendar :=
  ⟨2, "work week, half day", workWeek.WeekDays, [(20240103, ⟨[⟨90000, 130000⟩], 4 * Hour⟩)]⟩

/-- A task of 8h without manual dates. -/
def freeTask : StructureRowAttributes :=
  ⟨8 * Hour, Time.zero, Time.zero, ⟨2024, 1, 2, by decide, by decide⟩,
    ⟨2024, 1, 3, by decide, by decide⟩, 11, 1⟩

/-- A task of 8h whose start is set by hand to January 2 2024. -/
def pinnedTask : StructureRowAttributes :=
  ⟨8 * Hour, ⟨2024, 1, 2, by decide, by decide⟩, Time.zero,
    ⟨2024, 1, 2, by decide, by decide⟩, ⟨2024, 1, 3, by decide, by decide⟩, 11, 1⟩

/-- A project that starts on January 1 2024 on the work week. -/
def sampleGantt : GanttMeta := ⟨workWeek, 20240101, "UTC"⟩

/-- A structure configured with no track at all. -/
def zeroTrackConfig : StructureConfig := ⟨1, "project = PRJ", 0, 20240101⟩

/-- A client that serves one issue, mapped to row 7, with the given
attributes, and accepts every update. -/
def sampleClient (attributes : StructureRowAttributes) : JiraClient where
  GetGanttMeta := fun _ => Except.ok sampleGantt
  GetForestMapping := fun _ => Except.ok [("10001", "7")]
  GetIssues := fun _ => Except.ok [⟨"10001", "PRJ-1"⟩]
  GetRowAttributes := fun _ _ => Except.ok attributes
  UpdateLevelingDelay := fun _ _ _ _ _ => none
  Now := ⟨2024, 1, 1, by decide, by decide⟩
  Sscan := fun s => if s = "7" then (7, none) else (0, some "expected integer")

/-- A task of 16h without manual dates. -/
def longFreeTask : StructureRowAttributes :=
  ⟨16 * Hour, Time.zero, Time.zero, ⟨2024, 1, 1, by decide, by decide⟩,
    ⟨2024, 1, 3, by decide, by decide⟩, 12, 1⟩

/-- A structure configured with a single track, today being the project
start of `sampleGantt`. -/
def singleTrackConfig : StructureConfig := ⟨1, "project = PRJ", 1, 20240101⟩

/-- A client that serves two issues in order, the 16h task on row 7 and the
8h task on row 8, and accepts every update. -/
def twoTaskClient : JiraClient where
  GetGanttMeta := fun _ => Except.ok sampleGantt
  GetForestMapping := fun _ => Except.ok [("10001", "7"), ("10002", "8")]
  GetIssues := fun _ => Except.ok [⟨"10001", "PRJ-1"⟩, ⟨"10002", "PRJ-2"⟩]
  GetRowAttributes := fun _ rowId =>
    if rowId = 7 then Except.ok longFreeTask else Except.ok freeTask
  UpdateLevelingDelay := fun _ _ _ _ _ => none
  Now := ⟨2024, 1, 1, by decide, by decide⟩
  Sscan := fun s =>
    if s = "7" then (7, none) else if s = "8" then (8, none)
    else (0, some "expected integer")

/-- The delays of a single track seeded to `s`: for the task at position `j`
(from 0), `s` plus the durations of the tasks before it, added one after the
other as durations. -/
def singleTrackDelays (s : Int) (durs : List Int) : List Int :=
  (List.range durs.length).map (fun (j : Nat) => (durs.take j).foldl addDuration s)

/-- Working time of the work week in the first `n` days counted from a Monday:
40h for every full week and 8h for each of the first five days of the week
begun. -/
def workedUntil (n : Int) : Int :=
  40 * Hour * (n / 7) + 8 * Hour * (if n % 7 < 5 then n % 7 else 5)

/-! ## Arithmetic of int64 -/

theorem wrap64_of_inInt64 (x : Int) (h : inInt64 x) : wrap64 x = x := by
  unfold inInt64 at h
  unfold wrap64
  omega

theorem inInt64_wrap64 (x : Int) : inInt64 (wrap64 x) := by
  unfold inInt64 wrap64
  omega

theorem wrap64_wrap64 (x : Int) : wrap64 (wrap64 x) = wrap64 x :=
  wrap64_of_inInt64 _ (inInt64_wrap64 x)

theorem wrap64_add_wrap64_left (x y : Int) : wrap64 (wrap64 x + y) = wrap64 (x + y) := by
  unfold wrap64
  omega

theorem wrap64_add_wrap64_right (x y : Int) : wrap64 (x + wrap64 y) = wrap64 (x + y) := by
  unfold wrap64
  omega

theorem addDuration_of_inInt64 (a b : Int) (h : inInt64 (a + b)) : addDuration a b = a + b :=
  wrap64_of_inInt64 _ h

/-! ## The slot allocator -/

theorem findSlotScan_spec (rest : List Int) :
    ∀ (pre : List Int) (i : Nat) (d : Int),
      pre[i]? = some d →
      (∀ j b, pre[j]? = some b → d ≤ b ∧ (j < i → d < b)) →
      ∃ a, (pre ++ rest)[findSlotScan rest pre.length i d]? = some a ∧
        ∀ j b, (pre ++ rest)[j]? = some b →
          a ≤ b ∧ (j < findSlotScan rest pre.length i d → a < b) := by
  induction rest with
  | nil =>
    intro pre i d hi hmin
    simp only [findSlotScan, List.append_nil]
    exact ⟨d, hi, hmin⟩
  | cons v rest ih =>
    intro pre i d hi hmin
    have hilt : i < pre.length := by
      rcases Nat.lt_or_ge i pre.length with h | h
      · exact h
      · rw [List.getElem?_eq_none h] at hi; cases hi
    have hassoc : pre ++ v :: rest = (pre ++ [v]) ++ rest := by simp
    have hlen : (pre ++ [v]).length = pre.length + 1 := by simp
    simp only [findSlotScan]
    split
    · rename_i hgt
      rw [hassoc, ← hlen]
      apply ih (pre ++ [v]) pre.length v
      · simp
      · intro j b hj
        rcases Nat.lt_trichotomy j pre.length with h | h | h
        · rw [List.getElem?_append_left h] at hj
          have := (hmin j b hj).1
          exact ⟨by omega, fun _ => by omega⟩
        · subst h
          simp at hj
          subst hj
          exact ⟨le_refl _, fun h => absurd h (lt_irrefl _)⟩
        · rw [List.getElem?_eq_none (by simp; omega)] at hj; cases hj
    · rename_i hgt
      rw [hassoc, ← hlen]
      apply ih (pre ++ [v]) i d
      · rw [List.getElem?_append_left hilt]; exact hi
      · intro j b hj
        rcases Nat.lt_trichotomy j pre.length with h | h | h
        · rw [List.getElem?_append_left h] at hj
          exact hmin j b hj
        · subst h
          simp at hj
          subst hj
          exact ⟨by omega, fun h => by omega⟩
        · rw [List.getElem?_eq_none (by simp; omega)] at hj; cases hj

theorem FindSlot_cons (s0 : Int) (rest : List Int) :
    ∃ i a, FindSlot (s0 :: rest) = (i, none) ∧ (s0 :: rest)[i]? = some a ∧
      ∀ j b, (s0 :: rest)[j]? = some b → a ≤ b ∧ (j < i → a < b) := by
  have h := findSlotScan_spec rest [s0] 0 s0 (by simp) (by
    intro j b hj
    cases j with
    | zero => simp at hj; subst hj; exact ⟨le_refl _, fun h => absurd h (lt_irrefl _)⟩
    | succ j => simp at hj)
  obtain ⟨a, ha, hmin⟩ := h
  refine ⟨findSlotScan rest 1 0 s0, a, ?_, ?_, ?_⟩
  · simp [FindSlot, findSlotScan]
  · simpa using ha
  · simpa using hmin

theorem getElem?_lt_length {α : Type} (l : List α) (i : Nat) (a : α)
    (h : l[i]? = some a) : i < l.length := by
  rcases Nat.lt_or_ge i l.length with h1 | h1
  · exact h1
  · rw [List.getElem?_eq_none h1] at h; cases h

theorem GetLevelingDelayAndAdd_of_find (s : Slots) (d : Int) (i : Nat) (a : Int)
    (hf : FindSlot s = (i, none)) (ha : s[i]? = some a) :
    GetLevelingDelayAndAdd s d = some ((a, none), s.set i (addDuration a d)) := by
  simp [GetLevelingDelayAndAdd, hf, ha]

theorem GetLevelingDelayAndAddExact_of_find (s : Slots) (d : Int) (i : Nat) (a : Int)
    (hf : FindSlot s = (i, none)) (ha : s[i]? = some a) :
    GetLevelingDelayAndAddExact s d = some ((a, none), s.set i (a + d)) := by
  simp [GetLevelingDelayAndAddExact, hf, ha]

theorem busyAt_set (x v : Int) (s : Slots) :
    ∀ (i : Nat) (a : Int), s[i]? = some a →
      busyAt x (s.set i v) + (if x < a then 1 else 0)
        = busyAt x s + (if x < v then 1 else 0) := by
  induction s with
  | nil => intro i a h; simp at h
  | cons w s ih =>
    intro i a h
    cases i with
    | zero =>
      simp only [List.getElem?_cons_zero, Option.some.injEq] at h
      subst h
      simp only [List.set_cons_zero, busyAt, List.filter_cons]
      by_cases h1 : x < w <;> by_cases h2 : x < v <;> simp [h1, h2]
    | succ i =>
      simp only [List.getElem?_cons_succ] at h
      have := ih i a h
      simp only [busyAt, List.set_cons_succ, List.filter_cons] at this ⊢
      by_cases h1 : x < w <;> simp [h1] <;> omega

theorem busyAt_le_length (x : Int) (s : Slots) : busyAt x s ≤ s.length := by
  unfold busyAt
  exact List.length_filter_le _ _

/-- In exact integers any sequence of calls on a non-empty slice succeeds, and
the tasks that run at an instant are covered by the slots that became busy
at it. -/
theorem callsInOrderExact_spec (durs : List Int) :
    ∀ (s : Slots), 1 ≤ s.length → (∀ d ∈ durs, 0 ≤ d) →
      ∃ rs s1, callsInOrderExact s durs = some (rs, s1) ∧ rs.length = durs.length ∧
        (∀ r ∈ rs, r.2 = none) ∧ s1.length = s.length ∧
        ∀ x, activeAt x ((rs.map Prod.fst).zip durs) + busyAt x s ≤ busyAt x s1 := by
  induction durs with
  | nil =>
    intro s _ _
    exact ⟨[], s, rfl, rfl, by simp, rfl, by intro x; simp [activeAt]⟩
  | cons d rest ih =>
    intro s hs hd
    obtain ⟨s0, tl, rfl⟩ : ∃ s0 tl, s = s0 :: tl := by
      cases s with
      | nil => simp at hs
      | cons s0 tl => exact ⟨s0, tl, rfl⟩
    obtain ⟨i, a, hf, ha, _⟩ := FindSlot_cons s0 tl
    have hcall := GetLevelingDelayAndAddExact_of_find (s0 :: tl) d i a hf ha
    have hlen : ((s0 :: tl).set i (a + d)).length = (s0 :: tl).length := by simp
    obtain ⟨rs, s1, hrs, hl, herr, hl1, hact⟩ :=
      ih ((s0 :: tl).set i (a + d)) (by rw [hlen]; exact hs)
        (fun e he => hd e (List.mem_cons_of_mem _ he))
    refine ⟨(a, none) :: rs, s1, ?_, ?_, ?_, ?_, ?_⟩
    · simp [callsInOrderExact, hcall, hrs]
    · simp [hl]
    · intro r hr
      rcases List.mem_cons.1 hr with h | h
      · subst h; rfl
      · exact herr r h
    · rw [hl1, hlen]
    · intro x
      have h1 := hact x
      have h2 := busyAt_set x (a + d) (s0 :: tl) i a ha
      have hd0 : 0 ≤ d := hd d (List.mem_cons_self _ _)
      simp only [List.map_cons, List.zip_cons_cons, activeAt, List.filter_cons] at h1 ⊢
      by_cases hx : a ≤ x ∧ x < a + d
      · have hxa : ¬ x < a := by omega
        have hxv : x < a + d := hx.2
        simp only [hx, and_self, decide_True, if_true, List.length_cons]
        simp only [hxa, hxv, if_true, if_false] at h2
        omega
      · simp only [hx, decide_False]
        by_cases hxa : x < a
        · have hxv : x < a + d := by omega
          simp only [hxa, hxv, if_true] at h2
          simp at h1 ⊢
          omega
        · by_cases hxv : x < a + d
          · exact absurd ⟨by omega, hxv⟩ hx
          · simp only [hxa, hxv, if_false] at h2
            simp at h1 ⊢
            omega

/-- With durations >= 0 no load ever goes down in the exact run. -/
theorem callsInOrderExact_mono (durs : List Int) :
    ∀ (s : Slots) (rs : List (Int × Option String)) (s1 : Slots), 1 ≤ s.length →
      (∀ d ∈ durs, 0 ≤ d) → callsInOrderExact s durs = some (rs, s1) →
      ∀ (j : Nat) (v : Int), s[j]? = some v → ∃ w, s1[j]? = some w ∧ v ≤ w := by
  induction durs with
  | nil =>
    intro s rs s1 _ _ h j v hv
    simp only [callsInOrderExact, Option.some.injEq, Prod.mk.injEq] at h
    rw [← h.2]
    exact ⟨v, hv, le_refl _⟩
  | cons d rest ih =>
    intro s rs s1 hs hd h j v hv
    obtain ⟨s0, tl, rfl⟩ : ∃ s0 tl, s = s0 :: tl := by
      cases s with
      | nil => simp at hs
      | cons s0 tl => exact ⟨s0, tl, rfl⟩
    obtain ⟨i, a, hf, ha, _⟩ := FindSlot_cons s0 tl
    have hi := getElem?_lt_length _ _ _ ha
    have hcall := GetLevelingDelayAndAddExact_of_find (s0 :: tl) d i a hf ha
    have hd0 : 0 ≤ d := hd d (List.mem_cons_self _ _)
    simp only [callsInOrderExact, hcall] at h
    cases hrest : callsInOrderExact ((s0 :: tl).set i (a + d)) rest with
    | none => rw [hrest] at h; cases h
    | some p =>
      obtain ⟨rs1, s2⟩ := p
      rw [hrest] at h
      simp only [Option.some.injEq, Prod.mk.injEq] at h
      obtain ⟨_, rfl⟩ := h
      by_cases hji : j = i
      · subst hji
        have hva : a = v := Option.some.inj (ha.symm.trans hv)
        obtain ⟨w, hw, hle⟩ := ih _ rs1 s2 (by simp)
          (fun e he => hd e (List.mem_cons_of_mem _ he)) hrest j (a + d)
          (by rw [List.getElem?_set_self hi])
        exact ⟨w, hw, by omega⟩
      · exact ih _ rs1 s2 (by simp)
          (fun e he => hd e (List.mem_cons_of_mem _ he)) hrest j v
          (by rw [List.getElem?_set_ne (Ne.symm hji)]; exact hv)

theorem mem_of_getElem?_eq_some {α : Type} (l : List α) (i : Nat) (a : α)
    (h : l[i]? = some a) : a ∈ l := by
  rw [List.getElem?_eq_some] at h
  obtain ⟨hi, rfl⟩ := h
  exact List.getElem_mem hi

/-- When the seed is an int64 and the loads of the exact run end within int64,
the int64 run of the code is the exact run. -/
theorem callsInOrder_eq_exact (durs : List Int) :
    ∀ (s : Slots) (rs : List (Int × Option String)) (s1 : Slots), 1 ≤ s.length →
      (∀ d ∈ durs, 0 ≤ d) → callsInOrderExact s durs = some (rs, s1) →
      (∀ v ∈ s, inInt64 v) → (∀ v ∈ s1, inInt64 v) →
      callsInOrder s durs = some (rs, s1) := by
  induction durs with
  | nil =>
    intro s rs s1 _ _ h _ _
    simpa [callsInOrderExact, callsInOrder] using h
  | cons d rest ih =>
    intro s rs s1 hs hd h hlo hhi
    obtain ⟨s0, tl, rfl⟩ : ∃ s0 tl, s = s0 :: tl := by
      cases s with
      | nil => simp at hs
      | cons s0 tl => exact ⟨s0, tl, rfl⟩
    obtain ⟨i, a, hf, ha, _⟩ := FindSlot_cons s0 tl
    have hi := getElem?_lt_length _ _ _ ha
    have hcall := GetLevelingDelayAndAddExact_of_find (s0 :: tl) d i a hf ha
    have hd0 : 0 ≤ d := hd d (List.mem_cons_self _ _)
    have hdr : ∀ e ∈ rest, 0 ≤ e := fun e he => hd e (List.mem_cons_of_mem _ he)
    simp only [callsInOrderExact, hcall] at h
    cases hrest : callsInOrderExact ((s0 :: tl).set i (a + d)) rest with
    | none => rw [hrest] at h; cases h
    | some p =>
      obtain ⟨rs1, s2⟩ := p
      rw [hrest] at h
      simp only [Option.some.injEq, Prod.mk.injEq] at h
      obtain ⟨rfl, rfl⟩ := h
      obtain ⟨w, hw, hle⟩ := callsInOrderExact_mono rest _ rs1 s2 (by simp) hdr
        hrest i (a + d) (by rw [List.getElem?_set_self hi])
      have ha64 := hlo a (mem_of_getElem?_eq_some _ _ _ ha)
      have hw64 := hhi w (mem_of_getElem?_eq_some _ _ _ hw)
      have hsum : inInt64 (a + d) := by
        unfold inInt64 at ha64 hw64 ⊢
        omega
      have hlo1 : ∀ v ∈ (s0 :: tl).set i (a + d), inInt64 v := by
        intro v hv
        rcases List.mem_or_eq_of_mem_set hv with h1 | h1
        · exact hlo v h1
        · rw [h1]; exact hsum
      have hih := ih _ rs1 s2 (by simp) hdr hrest hlo1 hhi
      simp only [callsInOrder, GetLevelingDelayAndAdd_of_find (s0 :: tl) d i a hf ha,
        addDuration_of_inInt64 a d hsum, hih]

theorem NewSlots_eq (n : Nat) (delay : Int) :
    NewSlots (n : Int) delay = some (List.replicate n delay) := by
  simp [NewSlots]

/-- C3: `FindSlot` on an empty slice fails with the "no slots" error; on a
slice of length N >= 1 it succeeds with an index `i < N` whose load is at most
every load and strictly below every load at an earlier index, that is the
first index holding the minimum. -/
theorem FindSlot_first_minimum (s : Slots) :
    if s.length = 0 then FindSlot s = (0, some "no slots")
    else ∃ i a, FindSlot s = (i, none) ∧ i < s.length ∧ s[i]? = some a ∧
      ∀ j b, s[j]? = some b → a ≤ b ∧ (j < i → a < b) := by
  cases s with
  | nil => simp [FindSlot]
  | cons s0 tl =>
    rw [if_neg (by simp)]
    obtain ⟨i, a, hf, ha, hmin⟩ := FindSlot_cons s0 tl
    exact ⟨i, a, hf, getElem?_lt_length _ _ _ ha, ha, hmin⟩

/-- C2: on a slice of length N >= 1 `GetLevelingDelayAndAdd d` succeeds and
returns the load `a` of the slot `i` chosen by `FindSlot`, a minimum load;
afterwards slot `i` holds `a` plus `d`, the sum of the two durations as Go
adds them (exactly `a + d` whenever that is an int64), every other slot holds
what it held and the length is N. From two slots seeded to 0, three calls
with 4h return the delays 0, 0, 4h and leave the loads 8h, 4h; a slot at the
largest int64 to which 1 is added wraps to the smallest. -/
theorem GetLevelingDelayAndAdd_effect (s : Slots) (d : Int) (hN : 1 ≤ s.length) :
    (∃ i a s1, FindSlot s = (i, none) ∧ s[i]? = some a ∧
      (∀ (j : Nat) (b : Int), s[j]? = some b → a ≤ b) ∧
      GetLevelingDelayAndAdd s d = some ((a, none), s1) ∧
      s1.length = s.length ∧ s1[i]? = some (addDuration a d) ∧
      (inInt64 (a + d) → s1[i]? = some (a + d)) ∧
      ∀ j : Nat, j ≠ i → s1[j]? = s[j]?) ∧
    (NewSlots 2 0 = some [0, 0] ∧
      callsInOrder [0, 0] [4 * Hour, 4 * Hour, 4 * Hour]
        = some ([(0, none), (0, none), (4 * Hour, none)], [8 * Hour, 4 * Hour])) ∧
    GetLevelingDelayAndAdd [9223372036854775807] 1
      = some ((9223372036854775807, none), [-9223372036854775808]) := by
  refine ⟨?_, ?_, by decide⟩
  · obtain ⟨s0, tl, rfl⟩ : ∃ s0 tl, s = s0 :: tl := by
      cases s with
      | nil => simp at hN
      | cons s0 tl => exact ⟨s0, tl, rfl⟩
    obtain ⟨i, a, hf, ha, hmin⟩ := FindSlot_cons s0 tl
    have hi := getElem?_lt_length _ _ _ ha
    refine ⟨i, a, (s0 :: tl).set i (addDuration a d), hf, ha, fun j b h => (hmin j b h).1,
      GetLevelingDelayAndAdd_of_find _ d i a hf ha, by simp, ?_, ?_, ?_⟩
    · rw [List.getElem?_set_self hi]
    · intro h64
      rw [List.getElem?_set_self hi, addDuration_of_inInt64 a d h64]
    · intro j hj
      rw [List.getElem?_set_ne (Ne.symm hj)]
  · constructor
    · decide
    · decide

theorem GetLevelingDelayAndAdd_effect_witness :
    1 ≤ ([5, 3, 3] : Slots).length ∧
    (∃ i a s1, FindSlot [5, 3, 3] = (i, none) ∧ ([5, 3, 3] : Slots)[i]? = some a ∧
      (∀ (j : Nat) (b : Int), ([5, 3, 3] : Slots)[j]? = some b → a ≤ b) ∧
      GetLevelingDelayAndAdd [5, 3, 3] 2 = some ((a, none), s1) ∧
      s1.length = ([5, 3, 3] : Slots).length ∧ s1[i]? = some (addDuration a 2) ∧
      (inInt64 (a + 2) → s1[i]? = some (a + 2)) ∧
      ∀ j : Nat, j ≠ i → s1[j]? = ([5, 3, 3] : Slots)[j]?) :=
  ⟨by decide, (GetLevelingDelayAndAdd_effect [5, 3, 3] 2 (by decide)).1⟩

/-- C1: for N >= 1 tracks, any seed and any list of durations >= 0, with the
Duration arithmetic taken as exact integers, the slots made by
`NewSlots N seed` serve every call of `GetLevelingDelayAndAdd` in task order
without error, and at every instant `x` at most N of the tasks satisfy
delay <= x < delay + duration. Whenever the seed is an int64 and the loads
reached are int64 values, the int64 run of the code returns these same delays
and loads. -/
theorem at_most_N_tasks_overlap (N : Int) (seed : Int) (durs : List Int)
    (hN : 1 ≤ N) (hd : ∀ d ∈ durs, 0 ≤ d) :
    ∃ s0 rs s1, NewSlots N seed = some s0 ∧ callsInOrderExact s0 durs = some (rs, s1) ∧
      rs.length = durs.length ∧ (∀ r ∈ rs, r.2 = none) ∧
      (∀ x, (activeAt x ((rs.map Prod.fst).zip durs) : Int) ≤ N) ∧
      (inInt64 seed → (∀ v ∈ s1, inInt64 v) → callsInOrder s0 durs = some (rs, s1)) := by
  obtain ⟨n, rfl⟩ : ∃ n : Nat, N = (n : Int) := ⟨N.toNat, by omega⟩
  have hn : 1 ≤ n := by omega
  obtain ⟨rs, s1, hrs, hl, herr, hl1, hact⟩ :=
    callsInOrderExact_spec durs (List.replicate n seed) (by simpa using hn) hd
  refine ⟨List.replicate n seed, rs, s1, NewSlots_eq n seed, hrs, hl, herr, ?_, ?_⟩
  · intro x
    have h1 := hact x
    have h2 := busyAt_le_length x s1
    rw [hl1, List.length_replicate] at h2
    omega
  · intro hseed hloads
    exact callsInOrder_eq_exact durs _ rs s1 (by simpa using hn) hd hrs
      (fun v hv => by rw [List.eq_of_mem_replicate hv]; exact hseed) hloads

theorem at_most_N_tasks_overlap_witness :
    (1 : Int) ≤ 2 ∧ (∀ d ∈ ([4, 4, 4] : List Int), 0 ≤ d) ∧
    ∃ s0 rs s1, NewSlots 2 7 = some s0 ∧ callsInOrderExact s0 [4, 4, 4] = some (rs, s1) ∧
      rs.length = ([4, 4, 4] : List Int).length ∧ (∀ r ∈ rs, r.2 = none) ∧
      (∀ x, (activeAt x ((rs.map Prod.fst).zip [4, 4, 4]) : Int) ≤ 2) ∧
      (inInt64 7 → (∀ v ∈ s1, inInt64 v) → callsInOrder s0 [4, 4, 4] = some (rs, s1)) :=
  ⟨by decide, by decide, at_most_N_tasks_overlap 2 7 [4, 4, 4] (by decide) (by decide)⟩

/-! ## The calendar -/

theorem daysIn_le (m y : Int) : daysIn m y ≤ 31 := by
  unfold daysIn; split <;> (try split) <;> omega

theorem daysIn_ge (m y : Int) : 28 ≤ daysIn m y := by
  unfold daysIn; split <;> (try split) <;> omega

theorem Time.before_iff (t u : Time) :
    t.Before u = true ↔ dateIdFromTime t < dateIdFromTime u := by
  have h1 := t.month_ok
  have h2 := t.day_ok
  have h3 := u.month_ok
  have h4 := u.day_ok
  have h5 := daysIn_le t.month t.year
  have h6 := daysIn_le u.month u.year
  simp only [Time.Before, decide_eq_true_eq, dateIdFromTime]
  omega

theorem dateIdFromTime_inj (t u : Time) (h : dateIdFromTime t = dateIdFromTime u) :
    t = u := by
  have h1 := t.month_ok
  have h2 := t.day_ok
  have h3 := u.month_ok
  have h4 := u.day_ok
  have h5 := daysIn_le t.month t.year
  have h6 := daysIn_le u.month u.year
  simp only [dateIdFromTime] at h
  have hy : t.year = u.year := by omega
  have hm : t.month = u.month := by omega
  have hd : t.day = u.day := by omega
  cases t; cases u
  simp only at hy hm hd
  subst hy; subst hm; subst hd
  rfl

theorem Time.lt_addDay (t : Time) : dateIdFromTime t < dateIdFromTime t.addDay := by
  have h1 := t.month_ok
  have h2 := t.day_ok
  have h5 := daysIn_le t.month t.year
  unfold Time.addDay
  split
  · simp only [dateIdFromTime]; omega
  · split
    · simp only [dateIdFromTime]; omega
    · simp only [dateIdFromTime]; omega

/-- The day after `t` is the earliest date after `t`. -/
theorem Time.addDay_le (t u : Time) (h : dateIdFromTime t < dateIdFromTime u) :
    dateIdFromTime t.addDay ≤ dateIdFromTime u := by
  have h1 := t.month_ok
  have h2 := t.day_ok
  have h3 := u.month_ok
  have h4 := u.day_ok
  have h5 := daysIn_le t.month t.year
  have h6 := daysIn_le u.month u.year
  have hsame : u.year = t.year → u.month = t.month → u.day ≤ daysIn t.month t.year := by
    intro hy hm; rw [← hy, ← hm]; exact h4.2
  unfold Time.addDay
  simp only [dateIdFromTime] at h
  split
  · simp only [dateIdFromTime]; omega
  · split
    · simp only [dateIdFromTime]
      by_cases hy : u.year = t.year
      · by_cases hm : u.month = t.month
        · have := hsame hy hm; omega
        · omega
      · omega
    · simp only [dateIdFromTime]
      by_cases hy : u.year = t.year
      · by_cases hm : u.month = t.month
        · have := hsame hy hm; omega
        · omega
      · omega

theorem betweenLoop_unfold (c : Calendar) (e d : Time) (total : Int) :
    c.betweenLoop e d total =
      if d.Before e = true then
        c.betweenLoop e d.addDay
          (addDuration total (c.GetWorkingDurationForDate (dateIdFromTime d)))
      else total := by
  rw [Calendar.betweenLoop]

theorem betweenLoop_of_not_before (c : Calendar) (e d : Time) (total : Int)
    (h : dateIdFromTime e ≤ dateIdFromTime d) : c.betweenLoop e d total = total := by
  rw [betweenLoop_unfold]
  have : ¬ d.Before e = true := by rw [Time.before_iff]; omega
  rw [if_neg this]

theorem betweenLoop_of_before (c : Calendar) (e d : Time) (total : Int)
    (h : dateIdFromTime d < dateIdFromTime e) :
    c.betweenLoop e d total =
      c.betweenLoop e d.addDay
        (addDuration total (c.GetWorkingDurationForDate (dateIdFromTime d))) := by
  rw [betweenLoop_unfold]
  have : d.Before e = true := by rw [Time.before_iff]; exact h
  rw [if_pos this]

/-- From an int64 total the loop returns an int64. -/
theorem betweenLoop_wrapped (c : Calendar) (e : Time) :
    ∀ (n : Nat) (d : Time) (total : Int),
      (dateIdFromTime e - dateIdFromTime d).toNat = n → wrap64 total = total →
      wrap64 (c.betweenLoop e d total) = c.betweenLoop e d total := by
  intro n
  induction n using Nat.strong_induction_on with
  | _ n ih =>
    intro d total hn ht
    by_cases h : dateIdFromTime d < dateIdFromTime e
    · rw [betweenLoop_of_before c e d total h]
      have hlt := Time.lt_addDay d
      exact ih _ (by omega) d.addDay _ rfl (wrap64_wrap64 _)
    · rw [betweenLoop_of_not_before c e d total (by omega)]
      exact ht

/-- The running total only shifts the result of the loop, modulo 2^64. -/
theorem betweenLoop_total (c : Calendar) (e : Time) :
    ∀ (n : Nat) (d : Time) (total : Int),
      (dateIdFromTime e - dateIdFromTime d).toNat = n →
      wrap64 (c.betweenLoop e d total) = wrap64 (total + c.betweenLoop e d 0) := by
  intro n
  induction n using Nat.strong_induction_on with
  | _ n ih =>
    intro d total hn
    by_cases h : dateIdFromTime d < dateIdFromTime e
    · rw [betweenLoop_of_before c e d total h, betweenLoop_of_before c e d 0 h]
      have hlt := Time.lt_addDay d
      have hm : (dateIdFromTime e - dateIdFromTime d.addDay).toNat < n := by omega
      have h1 := ih _ hm d.addDay
        (addDuration total (c.GetWorkingDurationForDate (dateIdFromTime d))) rfl
      have h2 := ih _ hm d.addDay
        (addDuration 0 (c.GetWorkingDurationForDate (dateIdFromTime d))) rfl
      generalize c.betweenLoop e d.addDay
        (addDuration total (c.GetWorkingDurationForDate (dateIdFromTime d))) = x1 at h1 ⊢
      generalize c.betweenLoop e d.addDay
        (addDuration 0 (c.GetWorkingDurationForDate (dateIdFromTime d))) = x2 at h2 ⊢
      generalize c.betweenLoop e d.addDay 0 = r at h1 h2
      generalize c.GetWorkingDurationForDate (dateIdFromTime d) = f at h1 h2
      unfold addDuration wrap64 at h1 h2
      unfold wrap64
      omega
    · rw [betweenLoop_of_not_before c e d total (by omega),
        betweenLoop_of_not_before c e d 0 (by omega)]
      simp

theorem betweenLoop_zero_wrapped (c : Calendar) (e d : Time) :
    wrap64 (c.betweenLoop e d 0) = c.betweenLoop e d 0 :=
  betweenLoop_wrapped c e _ d 0 rfl (by decide)

theorem betweenLoop_step (c : Calendar) (e d : Time)
    (h : dateIdFromTime d < dateIdFromTime e) :
    c.betweenLoop e d 0 =
      wrap64 (c.GetWorkingDurationForDate (dateIdFromTime d) + c.betweenLoop e d.addDay 0) := by
  have h0 := betweenLoop_zero_wrapped c e d
  rw [betweenLoop_of_before c e d 0 h] at h0 ⊢
  have h1 := betweenLoop_total c e _ d.addDay
    (addDuration 0 (c.GetWorkingDurationForDate (dateIdFromTime d))) rfl
  rw [← h0, h1]
  simp only [addDuration, zero_add, wrap64_add_wrap64_left]

/-- The loop from `a` to `e` is the loop from `a` to `b` followed by the loop
from `b` to `e`, for dates `a <= b <= e`: the two results added as durations. -/
theorem betweenLoop_split (c : Calendar) (b e : Time)
    (hbe : dateIdFromTime b ≤ dateIdFromTime e) :
    ∀ (n : Nat) (a : Time), (dateIdFromTime b - dateIdFromTime a).toNat = n →
      dateIdFromTime a ≤ dateIdFromTime b →
      c.betweenLoop e a 0 = addDuration (c.betweenLoop b a 0) (c.betweenLoop e b 0) := by
  intro n
  induction n using Nat.strong_induction_on with
  | _ n ih =>
    intro a hn hab
    by_cases h : dateIdFromTime a < dateIdFromTime b
    · have hlt := Time.lt_addDay a
      have hle := Time.addDay_le a b h
      rw [betweenLoop_step c e a (by omega), betweenLoop_step c b a h,
        ih _ (by omega) a.addDay rfl hle]
      simp only [addDuration, wrap64_add_wrap64_left, wrap64_add_wrap64_right, add_assoc]
    · have hab2 : a = b := dateIdFromTime_inj a b (by omega)
      subst hab2
      rw [betweenLoop_of_not_before c a a 0 (le_refl _)]
      simp only [addDuration, zero_add, betweenLoop_zero_wrapped]

theorem parseDateId_of_parses (k : Int) (h : parses k) :
    (parseDateId k).2 = none ∧ dateIdFromTime (parseDateId k).1 = k := by
  simp only [parseDateId, dif_pos h, dateIdFromTime, true_and]
  omega

theorem parseDateId_of_not_parses (k : Int) (h : ¬ parses k) :
    parseDateId k = (Time.zero, some "parsing time: cannot parse") := by
  simp only [parseDateId, dif_neg h]

theorem parses_dateIdFromTime (t : Time) (h1 : 1000 ≤ t.year) (h2 : t.year ≤ 9999) :
    parses (dateIdFromTime t) := by
  have hm := t.month_ok
  have hd := t.day_ok
  have h31 := daysIn_le t.month t.year
  have e1 : dateIdFromTime t / 10000 = t.year := by simp only [dateIdFromTime]; omega
  have e2 : dateIdFromTime t / 100 % 100 = t.month := by simp only [dateIdFromTime]; omega
  have e3 : dateIdFromTime t % 100 = t.day := by simp only [dateIdFromTime]; omega
  unfold parses
  rw [e1, e2, e3]
  refine ⟨?_, ?_, hm, hd⟩
  · simp only [dateIdFromTime]; omega
  · simp only [dateIdFromTime]; omega

theorem year_of_parses (k : Int) (h : parses k) :
    1000 ≤ (parseDateId k).1.year ∧ (parseDateId k).1.year ≤ 9999 := by
  simp only [parseDateId, dif_pos h]
  obtain ⟨h1, h2, _⟩ := h
  omega

theorem idsBetween_of_le (s f : Int) (h : f ≤ s) : idsBetween s f = [] := by
  have : (f - s).toNat = 0 := by omega
  simp [idsBetween, this]

theorem idsBetween_of_lt (s f : Int) (h : s < f) :
    idsBetween s f = s :: idsBetween (s + 1) f := by
  have : (f - s).toNat = (f - (s + 1)).toNat + 1 := by omega
  simp only [idsBetween, this, List.range_succ_eq_map, List.map_cons, List.map_map]
  refine congrArg₂ _ (by simp) ?_
  apply List.map_congr_left
  intro i _
  simp only [Function.comp, Nat.succ_eq_add_one, Nat.cast_add, Nat.cast_one]
  omega

theorem calendarDaysBetween_of_le (s f : Int) (h : f ≤ s) :
    calendarDaysBetween s f = [] := by
  simp [calendarDaysBetween, idsBetween_of_le s f h]

theorem calendarDaysBetween_of_parses (s f : Int) (h : s < f) (hp : parses s) :
    calendarDaysBetween s f = s :: calendarDaysBetween (s + 1) f := by
  simp [calendarDaysBetween, idsBetween_of_lt s f h, hp]

theorem calendarDaysBetween_of_not_parses (s f : Int) (h : s < f) (hp : ¬ parses s) :
    calendarDaysBetween s f = calendarDaysBetween (s + 1) f := by
  simp [calendarDaysBetween, idsBetween_of_lt s f h, hp]

/-- Ids that are not dates are left out of the calendar days. -/
theorem calendarDaysBetween_skip (f : Int) :
    ∀ (n : Nat) (s : Int), (∀ k, s ≤ k → k < s + n → ¬ parses k) → s + n ≤ f →
      calendarDaysBetween s f = calendarDaysBetween (s + n) f := by
  intro n
  induction n with
  | zero => intro s _ _; simp
  | succ n ih =>
    intro s hk hf
    have h0 : ¬ parses s := hk s (le_refl _) (by push_cast; omega)
    rw [calendarDaysBetween_of_not_parses s f (by push_cast at hf; omega) h0,
      ih (s + 1) (fun k h1 h2 => hk k (by omega) (by push_cast; omega))
        (by push_cast at hf; omega)]
    congr 1
    push_cast
    omega

theorem sumOverDays_of_le (c : Calendar) (s f : Int) (h : f ≤ s) :
    c.sumOverDays s f = 0 := by
  simp [Calendar.sumOverDays, calendarDaysBetween_of_le s f h]

/-- No date lies strictly between a date and the day after it. -/
theorem not_parses_between (a : Time) (k : Int) (h1 : dateIdFromTime a < k)
    (h2 : k < dateIdFromTime a.addDay) : ¬ parses k := by
  intro hp
  obtain ⟨_, hk⟩ := parseDateId_of_parses k hp
  have := Time.addDay_le a (parseDateId k).1 (by rw [hk]; exact h1)
  rw [hk] at this
  omega

/-- The calendar days from a date on are that date and the calendar days
from the day after it on. -/
theorem calendarDaysBetween_step (a : Time) (f : Int) (h1 : 1000 ≤ a.year)
    (h2 : a.year ≤ 9999) (hf : dateIdFromTime a.addDay ≤ f) :
    calendarDaysBetween (dateIdFromTime a) f
      = dateIdFromTime a :: calendarDaysBetween (dateIdFromTime a.addDay) f := by
  have hlt := Time.lt_addDay a
  rw [calendarDaysBetween_of_parses _ _ (by omega) (parses_dateIdFromTime a h1 h2)]
  congr 1
  have hskip := calendarDaysBetween_skip f
    (dateIdFromTime a.addDay - (dateIdFromTime a + 1)).toNat (dateIdFromTime a + 1)
    (fun k h1 h2 => not_parses_between a k (by omega) (by omega)) (by omega)
  rw [hskip]
  congr 1
  omega

/-- The loop of `GetWorkingDurationBetween` between two dates of four-digit
years adds up the working durations of the calendar days of the range. -/
theorem betweenLoop_eq_sumOverDays (c : Calendar) (b : Time) (hb : b.year ≤ 9999) :
    ∀ (n : Nat) (a : Time), (dateIdFromTime b - dateIdFromTime a).toNat = n →
      1000 ≤ a.year → dateIdFromTime a ≤ dateIdFromTime b →
      c.betweenLoop b a 0
        = wrap64 (c.sumOverDays (dateIdFromTime a) (dateIdFromTime b)) := by
  intro n
  induction n using Nat.strong_induction_on with
  | _ n ih =>
    intro a hn ha hab
    by_cases h : dateIdFromTime a < dateIdFromTime b
    · have hlt := Time.lt_addDay a
      have hle := Time.addDay_le a b h
      have hay : a.year ≤ 9999 := by
        have h1 := a.month_ok
        have h2 := a.day_ok
        have h3 := b.month_ok
        have h4 := b.day_ok
        have h5 := daysIn_le b.month b.year
        simp only [dateIdFromTime] at h
        omega
      have hy' : 1000 ≤ a.addDay.year := by
        unfold Time.addDay
        split
        · exact ha
        · split
          · exact ha
          · simp only; omega
      rw [betweenLoop_step c b a h, ih _ (by omega) a.addDay rfl hy' hle]
      simp only [Calendar.sumOverDays, calendarDaysBetween_step a _ ha hay hle,
        List.map_cons, List.sum_cons, wrap64_add_wrap64_right]
    · rw [betweenLoop_of_not_before c b a 0 (by omega), sumOverDays_of_le c _ _ (by omega)]
      decide

theorem getElem?_parseDateId (k : Int) (h : parses k) :
    ∃ t, parseDateId k = (t, none) ∧ dateIdFromTime t = k := by
  refine ⟨(parseDateId k).1, ?_, (parseDateId_of_parses k h).2⟩
  have := (parseDateId_of_parses k h).1
  exact Prod.ext rfl this

/-- The remap of `Weekday` done by `GetWorkingDurationForDate` is the
Monday-first index. -/
theorem remap_weekday (t : Time) :
    (if t.Weekday = 0 then 6 else t.Weekday - 1) = t.mondayFirst := by
  simp only [Time.Weekday, Time.mondayFirst]
  split <;> omega

theorem mondayFirst_range (t : Time) : 0 ≤ t.mondayFirst ∧ t.mondayFirst < 7 := by
  simp only [Time.mondayFirst]
  omega

/-- Without an override, a date that parses gets the duration of the schedule
of its Monday-first weekday, when the calendar has that schedule. -/
theorem GetWorkingDurationForDate_weekday (c : Calendar) (k : Int) (t : Time)
    (hc : c.CustomDays.lookup k = none) (ht : parseDateId k = (t, none))
    (hlen : t.mondayFirst.toNat < c.WeekDays.length) :
    c.GetWorkingDurationForDate k = (c.WeekDays.getD t.mondayFirst.toNat default).Duration := by
  have hr := mondayFirst_range t
  simp only [Calendar.GetWorkingDurationForDate, hc, ht, remap_weekday]
  rw [if_pos]
  constructor
  · exact hr.1
  · omega

theorem GetWorkingDurationForDate_malformed (c : Calendar) (k : Int)
    (hc : c.CustomDays.lookup k = none) (hp : ¬ parses k) :
    c.GetWorkingDurationForDate k = 0 := by
  simp only [Calendar.GetWorkingDurationForDate, hc, parseDateId_of_not_parses k hp]

theorem GetWorkingDurationBetween_eq_sum (c : Calendar) (startId finishId : Int)
    (hs : parses startId) (hf : parses finishId) :
    c.GetWorkingDurationBetween startId finishId
      = wrap64 (c.sumOverDays startId finishId) := by
  obtain ⟨_, es⟩ := parseDateId_of_parses startId hs
  obtain ⟨_, ef⟩ := parseDateId_of_parses finishId hf
  have ys := year_of_parses startId hs
  have yf := year_of_parses finishId hf
  simp only [Calendar.GetWorkingDurationBetween]
  by_cases h : startId ≤ finishId
  · have := betweenLoop_eq_sumOverDays c (parseDateId finishId).1 yf.2 _
      (parseDateId startId).1 rfl ys.1 (by rw [es, ef]; exact h)
    rw [this, es, ef]
  · rw [betweenLoop_of_not_before c _ _ 0 (by rw [es, ef]; omega),
      sumOverDays_of_le c _ _ (by omega)]
    decide

/-- Working duration of a date in a calendar without overrides whose weekday
schedules have the durations `ds`. -/
theorem forDate_of_durations (c : Calendar) (ds : List Int) (k : Int) (i : Nat)
    (hc : c.CustomDays = []) (hw : c.WeekDays.map (fun s => s.Duration) = ds)
    (hp : parses k) (hi : (parseDateId k).1.mondayFirst = (i : Int))
    (hlen : i < ds.length) :
    c.GetWorkingDurationForDate k = ds.getD i 0 := by
  have hlen2 : i < c.WeekDays.length := by
    have := congrArg List.length hw
    simp only [List.length_map] at this
    omega
  obtain ⟨t, ht, _⟩ := getElem?_parseDateId k hp
  rw [ht] at hi
  simp only at hi
  have hti : t.mondayFirst.toNat = i := by omega
  rw [GetWorkingDurationForDate_weekday c k t (by simp [hc]) ht (by omega), hti, ← hw]
  rw [List.getD_eq_getElem _ _ hlen2, List.getD_eq_getElem _ _ (by simpa using hlen2)]
  simp

/-- The day count of `Date` and the day step of `AddDate` agree: the day
after has the next day number, across month ends, leap days and year ends. -/
theorem dayNumber_addDay (t : Time) : t.addDay.dayNumber = t.dayNumber + 1 := by
  obtain ⟨y, m, d, hm, hd⟩ := t
  have hleap : isLeap y = true ↔ (y % 4 = 0 ∧ (y % 100 ≠ 0 ∨ y % 400 = 0)) := by
    simp [isLeap]
  unfold Time.addDay
  simp only
  split
  · simp only [Time.dayNumber]; omega
  · rename_i h1
    split
    · rename_i h2
      simp only [Time.dayNumber]
      have hmm : m = 1 ∨ m = 2 ∨ m = 3 ∨ m = 4 ∨ m = 5 ∨ m = 6 ∨ m = 7 ∨ m = 8 ∨ m = 9
          ∨ m = 10 ∨ m = 11 := by omega
      by_cases hl : isLeap y = true
      · rcases hmm with h | h | h | h | h | h | h | h | h | h | h <;> subst h <;>
          simp [daysIn, daysBefore, hl] at h1 hd ⊢ <;> omega
      · rcases hmm with h | h | h | h | h | h | h | h | h | h | h <;> subst h <;>
          simp [daysIn, daysBefore, hl] at h1 hd ⊢ <;> omega
    · rename_i h2
      have h12 : m = 12 := by omega
      subst h12
      have hd31 : d = 31 := by
        simp [daysIn] at h1 hd; omega
      subst hd31
      simp only [Time.dayNumber, daysBefore]
      by_cases hl : isLeap y = true
      · have hl2 := hleap.1 hl
        simp [hl]
        omega
      · have hl2 : ¬ (y % 4 = 0 ∧ (y % 100 ≠ 0 ∨ y % 400 = 0)) := fun h => hl (hleap.2 h)
        simp [hl]
        omega

/-- The day after has the next weekday. -/
theorem mondayFirst_addDay (t : Time) : t.addDay.mondayFirst = (t.mondayFirst + 1) % 7 := by
  simp only [Time.mondayFirst, dayNumber_addDay]
  omega

theorem parseDateId_dateIdFromTime (t : Time) (h1 : 1000 ≤ t.year) (h2 : t.year ≤ 9999) :
    parseDateId (dateIdFromTime t) = (t, none) := by
  obtain ⟨u, hu, hk⟩ := getElem?_parseDateId _ (parses_dateIdFromTime t h1 h2)
  rw [hu, dateIdFromTime_inj u t hk]

/-- On the work week a day of a four-digit year adds what `workedUntil` gains
over that day. -/
theorem workWeek_forDate (t : Time) (h1 : 1000 ≤ t.year) (h2 : t.year ≤ 9999) :
    workWeek.GetWorkingDurationForDate (dateIdFromTime t)
      = workedUntil (t.dayNumber + 1) - workedUntil t.dayNumber := by
  have hr := mondayFirst_range t
  rw [GetWorkingDurationForDate_weekday workWeek _ t rfl (parseDateId_dateIdFromTime t h1 h2)
    (by simp only [workWeek, List.length_cons, List.length_nil]; omega)]
  obtain ⟨n, hn⟩ : ∃ n : Nat, t.mondayFirst.toNat = n := ⟨_, rfl⟩
  rw [hn]
  have hn7 : n < 7 := by omega
  simp only [Time.mondayFirst] at hn hr
  simp only [workedUntil, Hour]
  interval_cases n <;> simp [workWeek, Hour] <;> split_ifs <;> omega

/-- An id below 10000101 is no date, so its day adds nothing on the work
week. -/
theorem workWeek_forDate_early (k : Int) (h : k < 10000101) :
    workWeek.GetWorkingDurationForDate k = 0 := by
  apply GetWorkingDurationForDate_malformed workWeek k rfl
  intro hp
  unfold parses at hp
  omega

/-- The loop on the work week between two dates of four-digit years. -/
theorem betweenLoop_workWeek (e : Time) (he : e.year ≤ 9999) :
    ∀ (n : Nat) (a : Time), (dateIdFromTime e - dateIdFromTime a).toNat = n →
      1000 ≤ a.year → dateIdFromTime a ≤ dateIdFromTime e →
      workWeek.betweenLoop e a 0
        = wrap64 (workedUntil e.dayNumber - workedUntil a.dayNumber) := by
  intro n
  induction n using Nat.strong_induction_on with
  | _ n ih =>
    intro a hn ha hae
    by_cases h : dateIdFromTime a < dateIdFromTime e
    · have hlt := Time.lt_addDay a
      have hle := Time.addDay_le a e h
      have hay : a.year ≤ 9999 := by
        have h1 := a.month_ok
        have h2 := a.day_ok
        have h3 := e.month_ok
        have h4 := e.day_ok
        have h5 := daysIn_le e.month e.year
        simp only [dateIdFromTime] at h
        omega
      have hy' : 1000 ≤ a.addDay.year := by
        unfold Time.addDay
        split
        · exact ha
        · split
          · exact ha
          · simp only; omega
      rw [betweenLoop_step workWeek e a h, ih _ (by omega) a.addDay rfl hy' hle,
        workWeek_forDate a ha hay, dayNumber_addDay, wrap64_add_wrap64_right]
      congr 1
      omega
    · have hae2 : a = e := dateIdFromTime_inj a e (by omega)
      subst hae2
      rw [betweenLoop_of_not_before workWeek a a 0 (le_refl _), sub_self]
      decide

/-- The loop on the work week over days before the year 1000 returns zero. -/
theorem betweenLoop_workWeek_early (b : Time) (hb : dateIdFromTime b ≤ 10000101) :
    ∀ (n : Nat) (a : Time), (dateIdFromTime b - dateIdFromTime a).toNat = n →
      workWeek.betweenLoop b a 0 = 0 := by
  intro n
  induction n using Nat.strong_induction_on with
  | _ n ih =>
    intro a hn
    by_cases h : dateIdFromTime a < dateIdFromTime b
    · have hlt := Time.lt_addDay a
      rw [betweenLoop_step workWeek b a h, ih _ (by omega) a.addDay rfl,
        workWeek_forDate_early _ (by omega)]
      decide
    · rw [betweenLoop_of_not_before workWeek b a 0 (by omega)]

/-- The working duration on the work week between two ids that are dates. -/
theorem workWeek_between (startId finishId : Int) (hs : parses startId)
    (hf : parses finishId) (h : startId ≤ finishId) :
    workWeek.GetWorkingDurationBetween startId finishId
      = wrap64 (workedUntil (parseDateId finishId).1.dayNumber
          - workedUntil (parseDateId startId).1.dayNumber) := by
  have es := (parseDateId_of_parses startId hs).2
  have ef := (parseDateId_of_parses finishId hf).2
  exact betweenLoop_workWeek _ (year_of_parses finishId hf).2 _ _ rfl
    (year_of_parses startId hs).1 (by rw [es, ef]; exact h)

/-- Adding durations one after the other gives the integer sum modulo 2^64. -/
theorem foldl_addDuration (l : List Int) :
    ∀ s : Int, wrap64 (l.foldl addDuration s) = wrap64 (s + l.sum) := by
  induction l with
  | nil => intro s; simp
  | cons d rest ih =>
    intro s
    rw [List.foldl_cons, ih, List.sum_cons, addDuration, wrap64_add_wrap64_left, add_assoc]

theorem foldl_addDuration_wrapped (l : List Int) :
    ∀ s : Int, wrap64 s = s → wrap64 (l.foldl addDuration s) = l.foldl addDuration s := by
  induction l with
  | nil => intro s hs; exact hs
  | cons d rest ih =>
    intro s _
    rw [List.foldl_cons]
    exact ih _ (wrap64_wrap64 _)

theorem foldl_addDuration_of_wrapped (l : List Int) (s : Int) (hs : wrap64 s = s) :
    l.foldl addDuration s = wrap64 (s + l.sum) := by
  rw [← foldl_addDuration_wrapped l s hs, foldl_addDuration]

theorem foldl_addDuration_zero (l : List Int) :
    wrap64 l.sum = l.foldl addDuration 0 := by
  rw [foldl_addDuration_of_wrapped l 0 (by decide), zero_add]

/-- The first week of January 2024 on a calendar without overrides, 8h from
Monday to Friday and 0h at the weekend. -/
theorem between_first_week_2024 (c : Calendar) (hc : c.CustomDays = [])
    (hw : c.WeekDays.map (fun s => s.Duration)
      = [8 * Hour, 8 * Hour, 8 * Hour, 8 * Hour, 8 * Hour, 0, 0]) :
    c.GetWorkingDurationBetween 20240101 20240108 = 40 * Hour := by
  rw [GetWorkingDurationBetween_eq_sum c _ _ (by decide) (by decide)]
  have hdays : calendarDaysBetween 20240101 20240108
      = [20240101, 20240102, 20240103, 20240104, 20240105, 20240106, 20240107] := by
    decide
  simp only [Calendar.sumOverDays, hdays, List.map_cons, List.map_nil, List.sum_cons,
    List.sum_nil]
  rw [forDate_of_durations c _ 20240101 0 hc hw (by decide) (by decide) (by decide),
    forDate_of_durations c _ 20240102 1 hc hw (by decide) (by decide) (by decide),
    forDate_of_durations c _ 20240103 2 hc hw (by decide) (by decide) (by decide),
    forDate_of_durations c _ 20240104 3 hc hw (by decide) (by decide) (by decide),
    forDate_of_durations c _ 20240105 4 hc hw (by decide) (by decide) (by decide),
    forDate_of_durations c _ 20240106 5 hc hw (by decide) (by decide) (by decide),
    forDate_of_durations c _ 20240107 6 hc hw (by decide) (by decide) (by decide)]
  decide

/-- C4: for ids that are YYYYMMDD writings of real dates with a four-digit
year, `GetWorkingDurationBetween` is the sum of `GetWorkingDurationForDate`
over the real calendar days `d` with start <= d < finish, in calendar order:
the end of February of a leap year and the end of a year roll over to the
next real date. The sum is the int64 sum of Go, the integer sum modulo 2^64,
and is the integer sum itself whenever that is an int64. For a calendar
without overrides with 8h from Monday to Friday and 0h on Saturday and
Sunday, the range 20240101 to 20240108 gives 40h; on the work week the range
20240101 to 32520101, whose integer sum 2562960h is no int64, gives the
negative int64 that Go keeps. -/
theorem GetWorkingDurationBetween_sums_calendar_days (c : Calendar) (startId finishId : Int)
    (hs : parses startId) (hf : parses finishId) :
    c.GetWorkingDurationBetween startId finishId
        = wrap64 ((calendarDaysBetween startId finishId).map
            c.GetWorkingDurationForDate).sum ∧
    c.GetWorkingDurationBetween startId finishId
        = ((calendarDaysBetween startId finishId).map
            c.GetWorkingDurationForDate).foldl addDuration 0 ∧
    (inInt64 ((calendarDaysBetween startId finishId).map c.GetWorkingDurationForDate).sum →
      c.GetWorkingDurationBetween startId finishId
        = ((calendarDaysBetween startId finishId).map c.GetWorkingDurationForDate).sum) ∧
    (∀ k, k ∈ calendarDaysBetween startId finishId ↔
        (startId ≤ k ∧ k < finishId ∧ ∃ t : Time, dateIdFromTime t = k ∧
          1000 ≤ t.year ∧ t.year ≤ 9999)) ∧
    calendarDaysBetween 20240227 20240302 = [20240227, 20240228, 20240229, 20240301] ∧
    calendarDaysBetween 20231230 20240102 = [20231230, 20231231, 20240101] ∧
    (c.CustomDays = [] →
      c.WeekDays.map (fun s => s.Duration)
        = [8 * Hour, 8 * Hour, 8 * Hour, 8 * Hour, 8 * Hour, 0, 0] →
      c.GetWorkingDurationBetween 20240101 20240108 = 40 * Hour) ∧
    workWeek.GetWorkingDurationBetween 20240101 32520101 = -9220088073709551616 := by
  have hsum := GetWorkingDurationBetween_eq_sum c startId finishId hs hf
  refine ⟨hsum, ?_, ?_, ?_, by decide,
    ?_, ?_, ?_⟩
  · rw [hsum, Calendar.sumOverDays, foldl_addDuration_zero]
  · intro h64
    rw [hsum]
    exact wrap64_of_inInt64 _ h64
  · intro k
    simp only [calendarDaysBetween, idsBetween, List.mem_filter, List.mem_map, List.mem_range,
      decide_eq_true_eq]
    constructor
    · rintro ⟨⟨i, hi, rfl⟩, hp⟩
      refine ⟨by omega, by omega, (parseDateId (startId + i)).1,
        (parseDateId_of_parses _ hp).2, year_of_parses _ hp⟩
    · rintro ⟨h1, h2, t, rfl, hy1, hy2⟩
      exact ⟨⟨(dateIdFromTime t - startId).toNat, by omega, by omega⟩,
        parses_dateIdFromTime t hy1 hy2⟩
  · have e := fun k hp => (parseDateId_of_parses k hp).2
    have s1 := calendarDaysBetween_step (parseDateId 20231230).1 20240102
      (by decide) (by decide) (by decide)
    have s2 := calendarDaysBetween_step (parseDateId 20231231).1 20240102
      (by decide) (by decide) (by decide)
    have s3 := calendarDaysBetween_step (parseDateId 20240101).1 20240102
      (by decide) (by decide) (by decide)
    have a1 : dateIdFromTime (parseDateId 20231230).1.addDay = 20231231 := by decide
    have a2 : dateIdFromTime (parseDateId 20231231).1.addDay = 20240101 := by decide
    have a3 : dateIdFromTime (parseDateId 20240101).1.addDay = 20240102 := by decide
    rw [a1, e _ (by decide)] at s1
    rw [a2, e _ (by decide)] at s2
    rw [a3, e _ (by decide)] at s3
    rw [s1, s2, s3, calendarDaysBetween_of_le _ _ (le_refl _)]
  · exact between_first_week_2024 c
  · have d1 : (parseDateId 20240101).1.dayNumber = 738885 := by decide
    have d2 : (parseDateId 32520101).1.dayNumber = 1187403 := by decide
    rw [workWeek_between _ _ (by decide) (by decide) (by decide), d1, d2]
    decide

theorem GetWorkingDurationBetween_sums_calendar_days_witness :
    parses 20240101 ∧ parses 20240108 ∧
    workWeek.GetWorkingDurationBetween 20240101 20240108 = 40 * Hour :=
  ⟨by decide, by decide,
    (GetWorkingDurationBetween_sums_calendar_days workWeek 20240101 20240108
      (by decide) (by decide)).2.2.2.2.2.2.1 rfl (by decide)⟩

/-- C5: for ids `a <= b <= e` that are YYYYMMDD writings of real dates with a
four-digit year, the working duration from `a` to `e` is the working duration
from `a` to `b` plus the one from `b` to `e`, added as Go adds two durations;
it is their integer sum whenever that is an int64. On the work week the
ranges 20240101 to 26380101 and 26380101 to 32520101 give 1281480h each, and
the whole range gives their int64 sum, which wraps. -/
theorem GetWorkingDurationBetween_additive (c : Calendar) (a b e : Int)
    (ha : parses a) (hb : parses b) (he : parses e) (hab : a ≤ b) (hbe : b ≤ e) :
    c.GetWorkingDurationBetween a e
      = addDuration (c.GetWorkingDurationBetween a b) (c.GetWorkingDurationBetween b e) ∧
    (inInt64 (c.GetWorkingDurationBetween a b + c.GetWorkingDurationBetween b e) →
      c.GetWorkingDurationBetween a e
        = c.GetWorkingDurationBetween a b + c.GetWorkingDurationBetween b e) ∧
    (workWeek.GetWorkingDurationBetween 20240101 26380101 = 4613328000000000000 ∧
      workWeek.GetWorkingDurationBetween 26380101 32520101 = 4613328000000000000 ∧
      workWeek.GetWorkingDurationBetween 20240101 32520101
        = addDuration 4613328000000000000 4613328000000000000) := by
  have ea := (parseDateId_of_parses a ha).2
  have eb := (parseDateId_of_parses b hb).2
  have ee := (parseDateId_of_parses e he).2
  have hsplit : c.GetWorkingDurationBetween a e
      = addDuration (c.GetWorkingDurationBetween a b) (c.GetWorkingDurationBetween b e) := by
    simp only [Calendar.GetWorkingDurationBetween]
    exact betweenLoop_split c (parseDateId b).1 (parseDateId e).1 (by rw [eb, ee]; exact hbe)
      _ (parseDateId a).1 rfl (by rw [ea, eb]; exact hab)
  refine ⟨hsplit, fun h64 => by rw [hsplit]; exact addDuration_of_inInt64 _ _ h64, ?_⟩
  have d1 : (parseDateId 20240101).1.dayNumber = 738885 := by decide
  have d2 : (parseDateId 26380101).1.dayNumber = 963144 := by decide
  have d3 : (parseDateId 32520101).1.dayNumber = 1187403 := by decide
  refine ⟨?_, ?_, ?_⟩
  · rw [workWeek_between _ _ (by decide) (by decide) (by decide), d1, d2]
    decide
  · rw [workWeek_between _ _ (by decide) (by decide) (by decide), d2, d3]
    decide
  · rw [workWeek_between _ _ (by decide) (by decide) (by decide), d1, d3]
    decide

theorem GetWorkingDurationBetween_additive_witness :
    parses 20240101 ∧ parses 20240104 ∧ parses 20240108 ∧
    (20240101 : Int) ≤ 20240104 ∧ (20240104 : Int) ≤ 20240108 ∧
    workWeek.GetWorkingDurationBetween 20240101 20240108
      = addDuration (workWeek.GetWorkingDurationBetween 20240101 20240104)
          (workWeek.GetWorkingDurationBetween 20240104 20240108) :=
  ⟨by decide, by decide, by decide, by decide, by decide,
    (GetWorkingDurationBetween_additive workWeek 20240101 20240104 20240108
      (by decide) (by decide) (by decide) (by decide) (by decide)).1⟩

/-- C6: with seven weekday schedules, `GetWorkingDurationForDate` gives the
duration of the override when the id is a key of `CustomDays`; otherwise, for
an id that is the YYYYMMDD writing of a real date `t`, the duration of
`WeekDays[k]` with `k` the day of the week of `t` counted from Monday = 0 to
Sunday = 6; otherwise zero. January 1 2024 has index 0, January 6 index 5,
January 7 index 6, and an override of 4h wins over an 8h weekday. -/
theorem GetWorkingDurationForDate_cases (c : Calendar) (dateId : Int)
    (h7 : c.WeekDays.length = 7) :
    (∀ day, c.CustomDays.lookup dateId = some day →
      c.GetWorkingDurationForDate dateId = day.Duration) ∧
    (c.CustomDays.lookup dateId = none → parses dateId →
      ∃ (t : Time) (sched : DaySchedule), dateIdFromTime t = dateId ∧
        0 ≤ t.mondayFirst ∧ t.mondayFirst < 7 ∧
        c.WeekDays[t.mondayFirst.toNat]? = some sched ∧
        c.GetWorkingDurationForDate dateId = sched.Duration) ∧
    (c.CustomDays.lookup dateId = none → ¬ parses dateId →
      c.GetWorkingDurationForDate dateId = 0) ∧
    ((parseDateId 20240101).1.mondayFirst = 0 ∧ (parseDateId 20240106).1.mondayFirst = 5 ∧
      (parseDateId 20240107).1.mondayFirst = 6 ∧
      workWeek.GetWorkingDurationForDate 20240103 = 8 * Hour ∧
      workWeekHalfDay.GetWorkingDurationForDate 20240103 = 4 * Hour) := by
  refine ⟨?_, ?_, GetWorkingDurationForDate_malformed c dateId, ?_⟩
  · intro day hday
    simp only [Calendar.GetWorkingDurationForDate, hday]
  · intro hc hp
    obtain ⟨t, ht, hk⟩ := getElem?_parseDateId dateId hp
    have hr := mondayFirst_range t
    have hlen : t.mondayFirst.toNat < c.WeekDays.length := by omega
    refine ⟨t, c.WeekDays[t.mondayFirst.toNat], hk, hr.1, hr.2, ?_, ?_⟩
    · exact List.getElem?_eq_getElem hlen
    · rw [GetWorkingDurationForDate_weekday c dateId t hc ht hlen,
        List.getD_eq_getElem _ _ hlen]
  · refine ⟨by decide, by decide, by decide, by decide, by decide⟩

theorem GetWorkingDurationForDate_cases_witness :
    workWeek.WeekDays.length = 7 ∧
    (∃ (t : Time) (sched : DaySchedule), dateIdFromTime t = 20240106 ∧
      0 ≤ t.mondayFirst ∧ t.mondayFirst < 7 ∧
      workWeek.WeekDays[t.mondayFirst.toNat]? = some sched ∧
      workWeek.GetWorkingDurationForDate 20240106 = sched.Duration) ∧
    workWeek.GetWorkingDurationForDate 20240230 = 0 :=
  ⟨by decide,
    (GetWorkingDurationForDate_cases workWeek 20240106 (by decide)).2.1 rfl (by decide),
    (GetWorkingDurationForDate_cases workWeek 20240230 (by decide)).2.2.1 rfl (by decide)⟩

/-! ## The planner -/

/-- C9, at the failing input: the finish id 20240108 is not after the start
id 20240132, which is no date; the parse error is dropped, the loop starts at
the zero time, January 1 of year 1, and the result on the work week is
2137224h, the working time of every day from January 1 of the year 1000 on,
at least the 40h of the first week of January 2024, not zero. -/
theorem GetWorkingDurationBetween_malformed_start :
    (20240108 : Int) ≤ 20240132 ∧ ¬ parses 20240132 ∧
    parseDateId 20240132 = (Time.zero, some "parsing time: cannot parse") ∧
    40 * Hour ≤ workWeek.GetWorkingDurationBetween 20240132 20240108 ∧
    workWeek.GetWorkingDurationBetween 20240132 20240108 = 2137224 * Hour := by
  have h1 : workWeek.GetWorkingDurationBetween 20240132 20240108
      = workWeek.betweenLoop (parseDateId 20240108).1 Time.zero 0 := by
    simp only [Calendar.GetWorkingDurationBetween,
      parseDateId_of_not_parses 20240132 (by decide)]
  have h2 := betweenLoop_split workWeek (parseDateId 10000101).1 (parseDateId 20240108).1
    (by decide) _ Time.zero rfl (by decide)
  have h3 := betweenLoop_workWeek_early (parseDateId 10000101).1 (by decide) _ Time.zero rfl
  have h4 := betweenLoop_workWeek (parseDateId 20240108).1 (by decide) _
    (parseDateId 10000101).1 rfl (by decide) (by decide)
  have d1 : (parseDateId 20240108).1.dayNumber = 738892 := by decide
  have d2 : (parseDateId 10000101).1.dayNumber = 364877 := by decide
  have hval : workWeek.GetWorkingDurationBetween 20240132 20240108 = 2137224 * Hour := by
    rw [h1, h2, h3, h4, d1, d2]
    decide
  refine ⟨by decide, by decide, parseDateId_of_not_parses _ (by decide), ?_, hval⟩
  rw [hval]
  decide

theorem SetDelay_of_lt (s : Slots) (i : Nat) (v : Int) (h : i < s.length) :
    SetDelay s i v = some (s.set i v) := by
  simp [SetDelay, h]

/-- C8: on slots of length N >= 1, the step for a task with a manual start
or a manual finish gives the leveling delay zero, and the slot `i` that
`FindSlot` selected now holds the working duration from the project start to
the date of `attributes.Start` plus the task's duration, added as Go adds two
durations (their integer sum whenever that is an int64), whatever the slot
held before; the other slots and the length are unchanged. The planner loop
hands `(rowId, 0)` to the update and goes on with the updated slots, on which
the next `FindSlot` returns the first index of their minimum. -/
theorem pinned_step_overwrites_slot (gantt : GanttMeta) (slots : Slots)
    (attributes : StructureRowAttributes) (hN : 1 ≤ slots.length)
    (hpin : attributes.ManualStart.IsZero = false ∨ attributes.ManualFinish.IsZero = false) :
    ∃ i s1, FindSlot slots = (i, none) ∧ i < slots.length ∧
      levelingStep gantt slots attributes = some (0, s1) ∧
      s1.length = slots.length ∧
      s1[i]? = some (addDuration
        (gantt.Calendar.GetWorkingDurationBetween gantt.StartDateId
          (dateIdFromTime attributes.Start)) attributes.Duration) ∧
      (inInt64 (gantt.Calendar.GetWorkingDurationBetween gantt.StartDateId
          (dateIdFromTime attributes.Start) + attributes.Duration) →
        s1[i]? = some (gantt.Calendar.GetWorkingDurationBetween gantt.StartDateId
          (dateIdFromTime attributes.Start) + attributes.Duration)) ∧
      (∀ j : Nat, j ≠ i → s1[j]? = slots[j]?) ∧
      (∃ i1 a1, FindSlot s1 = (i1, none) ∧ s1[i1]? = some a1 ∧
        ∀ (j : Nat) (b : Int), s1[j]? = some b → a1 ≤ b ∧ (j < i1 → a1 < b)) ∧
      (∀ (client : JiraClient) (cfg : StructureConfig) (mapping : List (String × String))
        (issue : JiraIssue) (rest : List JiraIssue) (out : List (Int × Int))
        (rowID : String) (rowIDInt : Int),
        mapping.lookup issue.ID = some rowID → parseInt client rowID = (rowIDInt, none) →
        client.GetRowAttributes cfg.ID rowIDInt = Except.ok attributes →
        levelingLoop client cfg gantt mapping (issue :: rest) slots out =
          match client.UpdateLevelingDelay cfg.ID rowIDInt 0 attributes.Signature
              attributes.Version with
          | some err => ⟨out ++ [(rowIDInt, 0)], Exit.fatal err⟩
          | none => levelingLoop client cfg gantt mapping rest s1 (out ++ [(rowIDInt, 0)])) ∧
      addDuration (8 * Hour) 9223372036854775807 = -9223343236854775809 := by
  obtain ⟨s0, tl, rfl⟩ : ∃ s0 tl, slots = s0 :: tl := by
    cases slots with
    | nil => simp at hN
    | cons s0 tl => exact ⟨s0, tl, rfl⟩
  obtain ⟨i, a, hf, ha, _⟩ := FindSlot_cons s0 tl
  have hi := getElem?_lt_length _ _ _ ha
  have hcond : (!attributes.ManualStart.IsZero || !attributes.ManualFinish.IsZero) = true := by
    rcases hpin with h | h <;> simp [h]
  have hstep : levelingStep gantt (s0 :: tl) attributes
      = some (0, (s0 :: tl).set i (addDuration
        (gantt.Calendar.GetWorkingDurationBetween gantt.StartDateId
          (dateIdFromTime attributes.Start)) attributes.Duration)) := by
    simp only [levelingStep, if_pos hcond, hf, SetDelay_of_lt _ i _ hi]
  refine ⟨i, _, hf, hi, hstep, by simp, ?_, ?_, ?_, ?_, ?_, by decide⟩
  · rw [List.getElem?_set_self hi]
  · intro h64
    rw [List.getElem?_set_self hi, addDuration_of_inInt64 _ _ h64]
  · intro j hj
    rw [List.getElem?_set_ne (Ne.symm hj)]
  · cases i with
    | zero =>
      rw [List.set_cons_zero]
      obtain ⟨i1, a1, h1, h2, h3⟩ := FindSlot_cons
        (addDuration (gantt.Calendar.GetWorkingDurationBetween gantt.StartDateId
          (dateIdFromTime attributes.Start)) attributes.Duration) tl
      exact ⟨i1, a1, h1, h2, h3⟩
    | succ i =>
      rw [List.set_cons_succ]
      obtain ⟨i1, a1, h1, h2, h3⟩ := FindSlot_cons s0
        (tl.set i (addDuration (gantt.Calendar.GetWorkingDurationBetween gantt.StartDateId
          (dateIdFromTime attributes.Start)) attributes.Duration))
      exact ⟨i1, a1, h1, h2, h3⟩
  · intro client cfg mapping issue rest out rowID rowIDInt hmap hparse hattr
    simp only [levelingLoop, hmap, hparse, hattr, hstep]

theorem pinned_step_overwrites_slot_witness :
    1 ≤ ([5 * Hour, 3 * Hour, 3 * Hour] : Slots).length ∧
    (pinnedTask.ManualStart.IsZero = false ∨ pinnedTask.ManualFinish.IsZero = false) ∧
    ∃ i s1, FindSlot [5 * Hour, 3 * Hour, 3 * Hour] = (i, none) ∧
      levelingStep sampleGantt [5 * Hour, 3 * Hour, 3 * Hour] pinnedTask = some (0, s1) := by
  refine ⟨by decide, Or.inl (by decide), ?_⟩
  obtain ⟨i, s1, h1, _, h2, _⟩ := pinned_step_overwrites_slot sampleGantt
    [5 * Hour, 3 * Hour, 3 * Hour] pinnedTask (by decide) (Or.inl (by decide))
  exact ⟨i, s1, h1, h2⟩

/-- C10: with a positive configured start date as `todayId` and N >= 0 tracks,
the slots are N zeros when the project start id is at or after `todayId`,
whatever the calendar holds, and otherwise N copies of the working duration
from the project start id to `todayId`. -/
theorem seedSlots_rule (client : JiraClient) (cfg : StructureConfig) (gantt : GanttMeta)
    (hpos : 0 < cfg.StartDateID) (hN : 0 ≤ cfg.ParallelProjects) :
    (gantt.StartDateId ≥ cfg.StartDateID →
      seedSlots client cfg gantt
        = some (List.replicate cfg.ParallelProjects.toNat 0)) ∧
    (gantt.StartDateId < cfg.StartDateID →
      seedSlots client cfg gantt
        = some (List.replicate cfg.ParallelProjects.toNat
            (gantt.Calendar.GetWorkingDurationBetween gantt.StartDateId cfg.StartDateID))) := by
  have hnot : ¬ cfg.StartDateID ≤ 0 := by omega
  have hneg : ¬ cfg.ParallelProjects < 0 := by omega
  constructor
  · intro h
    simp only [seedSlots, if_neg hnot, if_pos h, NewSlots, if_neg hneg, List.map_replicate]
  · intro h
    have h' : ¬ gantt.StartDateId ≥ cfg.StartDateID := by omega
    simp only [seedSlots, if_neg hnot, if_neg h', NewSlots, if_neg hneg, List.map_replicate]

theorem seedSlots_rule_witness :
    (0 : Int) < 20240108 ∧ (0 : Int) ≤ 2 ∧
    seedSlots (sampleClient freeTask) ⟨1, "project = PRJ", 2, 20240108⟩ sampleGantt
      = some [40 * Hour, 40 * Hour] := by
  refine ⟨by decide, by decide, ?_⟩
  have h := (seedSlots_rule (sampleClient freeTask) ⟨1, "project = PRJ", 2, 20240108⟩
    sampleGantt (by decide) (by decide)).2 (by decide)
  rw [h]
  have : sampleGantt.Calendar.GetWorkingDurationBetween sampleGantt.StartDateId 20240108
      = 40 * Hour := between_first_week_2024 workWeek rfl (by decide)
  simp only [this]
  rfl

/-- C7, at the failing input: with no track configured and one mapped task
without manual dates, the error of `GetLevelingDelayAndAdd` is dropped, the
pair (7, 0) is handed to the update and the run returns without error. With a
manually pinned task instead, the run panics before any update. -/
theorem zero_tracks_free_task_not_fatal :
    GetLevelingDelayAndAdd [] (8 * Hour) = some ((0, some "no slots"), []) ∧
    calculateLeveling (sampleClient freeTask) zeroTrackConfig
      = ⟨[(7, 0)], Exit.returned none⟩ ∧
    calculateLeveling (sampleClient pinnedTask) zeroTrackConfig
      = ⟨[], Exit.panicked⟩ := by
  refine ⟨by decide, ?_, ?_⟩
  · decide
  · decide

theorem singleTrackDelays_nil (s : Int) : singleTrackDelays s [] = [] := by
  simp [singleTrackDelays]

theorem singleTrackDelays_cons (s d : Int) (rest : List Int) :
    singleTrackDelays s (d :: rest) = s :: singleTrackDelays (addDuration s d) rest := by
  simp only [singleTrackDelays, List.length_cons, List.range_succ_eq_map, List.map_cons,
    List.map_map, List.take_zero, List.foldl_nil]
  congr 1

theorem GetLevelingDelayAndAdd_single (s d : Int) :
    GetLevelingDelayAndAdd [s] d = some ((s, none), [addDuration s d]) := by
  simp [GetLevelingDelayAndAdd, FindSlot, findSlotScan]

theorem callsInOrder_single (durs : List Int) :
    ∀ s : Int, callsInOrder [s] durs
      = some ((singleTrackDelays s durs).map (fun d => (d, none)),
          [durs.foldl addDuration s]) := by
  induction durs with
  | nil => intro s; simp [callsInOrder, singleTrackDelays_nil]
  | cons d rest ih =>
    intro s
    simp only [callsInOrder, GetLevelingDelayAndAdd_single, ih (addDuration s d),
      singleTrackDelays_cons, List.map_cons, List.foldl_cons]

theorem levelingStep_single_free (gantt : GanttMeta) (s : Int)
    (attributes : StructureRowAttributes) (h1 : attributes.ManualStart.IsZero = true)
    (h2 : attributes.ManualFinish.IsZero = true) :
    levelingStep gantt [s] attributes
      = some (s, [addDuration s attributes.Duration]) := by
  simp [levelingStep, h1, h2, GetLevelingDelayAndAdd_single]

/-- On a single track the planner loop over mapped free tasks hands each row
the load of the track and adds the task's duration to it. -/
theorem levelingLoop_single (client : JiraClient) (cfg : StructureConfig) (gantt : GanttMeta)
    (mapping : List (String × String))
    (rows : List (JiraIssue × Int × StructureRowAttributes)) :
    (∀ r ∈ rows, ∃ rowID, mapping.lookup r.1.ID = some rowID ∧
      parseInt client rowID = (r.2.1, none) ∧
      client.GetRowAttributes cfg.ID r.2.1 = Except.ok r.2.2 ∧
      r.2.2.ManualStart.IsZero = true ∧ r.2.2.ManualFinish.IsZero = true ∧
      ∀ delay, client.UpdateLevelingDelay cfg.ID r.2.1 delay r.2.2.Signature
        r.2.2.Version = none) →
    ∀ (s : Int) (out : List (Int × Int)),
      levelingLoop client cfg gantt mapping (rows.map (fun r => r.1)) [s] out
        = ⟨out ++ (rows.map (fun r => r.2.1)).zip
            (singleTrackDelays s (rows.map (fun r => r.2.2.Duration))),
          Exit.returned none⟩ := by
  induction rows with
  | nil =>
    intro _ s out
    simp [levelingLoop, singleTrackDelays_nil]
  | cons r rest ih =>
    intro h s out
    obtain ⟨rowID, hmap, hparse, hattr, hz1, hz2, hupd⟩ := h r (List.mem_cons_self _ _)
    have hrest := ih (fun q hq => h q (List.mem_cons_of_mem _ hq))
    simp only [List.map_cons, levelingLoop, hmap, hparse, hattr,
      levelingStep_single_free gantt s r.2.2 hz1 hz2, hupd, hrest, singleTrackDelays_cons,
      List.zip_cons_cons, List.append_assoc, List.singleton_append]

/-- C11: with track count 1 and the slot seeded to `s`, the delays returned
for free tasks of durations `d_1, ..., d_k`, in order, are `s` plus the
durations before each task, added one after the other as Go adds durations;
for an int64 seed that is the integer `s + d_1 + ... + d_(j-1)` modulo 2^64,
and that integer itself whenever it is an int64. The planner loop hands
exactly these delays to the update, row by row. With `s = 0` and tasks of 16h
then 8h the delays are 0h and 16h; with durations of the largest int64, 1 and
1 the third delay wraps to the smallest int64. -/
theorem single_track_delays (s : Int) (durs : List Int) :
    NewSlots 1 s = some [s] ∧
    (∃ delays : List Int, delays.length = durs.length ∧
      (∀ j : Nat, j < durs.length →
        delays[j]? = some ((durs.take j).foldl addDuration s)) ∧
      (inInt64 s → ∀ j : Nat, j < durs.length →
        delays[j]? = some (wrap64 (s + (durs.take j).sum))) ∧
      (inInt64 s → ∀ j : Nat, j < durs.length → inInt64 (s + (durs.take j).sum) →
        delays[j]? = some (s + (durs.take j).sum)) ∧
      callsInOrder [s] durs
        = some (delays.map (fun d => (d, none)), [durs.foldl addDuration s]) ∧
      ∀ (client : JiraClient) (cfg : StructureConfig) (gantt : GanttMeta)
        (mapping : List (String × String))
        (rows : List (JiraIssue × Int × StructureRowAttributes))
        (out : List (Int × Int)),
        rows.map (fun r => r.2.2.Duration) = durs →
        (∀ r ∈ rows, ∃ rowID, mapping.lookup r.1.ID = some rowID ∧
          parseInt client rowID = (r.2.1, none) ∧
          client.GetRowAttributes cfg.ID r.2.1 = Except.ok r.2.2 ∧
          r.2.2.ManualStart.IsZero = true ∧ r.2.2.ManualFinish.IsZero = true ∧
          ∀ delay, client.UpdateLevelingDelay cfg.ID r.2.1 delay r.2.2.Signature
            r.2.2.Version = none) →
        levelingLoop client cfg gantt mapping (rows.map (fun r => r.1)) [s] out
          = ⟨out ++ (rows.map (fun r => r.2.1)).zip delays, Exit.returned none⟩) ∧
    callsInOrder [0] [16 * Hour, 8 * Hour]
      = some ([(0, none), (16 * Hour, none)], [24 * Hour]) ∧
    calculateLeveling twoTaskClient singleTrackConfig
      = ⟨[(7, 0), (8, 16 * Hour)], Exit.returned none⟩ ∧
    callsInOrder [0] [9223372036854775807, 1, 1]
      = some ([(0, none), (9223372036854775807, none), (-9223372036854775808, none)],
          [-9223372036854775807]) := by
  have hfold : ∀ j : Nat, j < durs.length →
      (singleTrackDelays s durs)[j]? = some ((durs.take j).foldl addDuration s) := by
    intro j hj
    simp [singleTrackDelays, hj]
  refine ⟨by simp [NewSlots], ⟨singleTrackDelays s durs, ?_, hfold, ?_, ?_,
    callsInOrder_single durs s, ?_⟩, by decide, by decide, by decide⟩
  · simp [singleTrackDelays]
  · intro hs j hj
    rw [hfold j hj, foldl_addDuration_of_wrapped _ s (wrap64_of_inInt64 s hs)]
  · intro hs j hj h64
    rw [hfold j hj, foldl_addDuration_of_wrapped _ s (wrap64_of_inInt64 s hs),
      wrap64_of_inInt64 _ h64]
  · intro client cfg gantt mapping rows out hd h
    rw [← hd]
    exact levelingLoop_single client cfg gantt mapping rows h s out

end Leveling
